import Mathlib

/-!
Shallow embedding of the core of the Interactive Campus Navigation System
(`apply.py`): the graph data model (`Graph` with its mutation and query
operations), the traversal engine (`bfs`, `dfs`), and the point-to-segment
geometry helper (`point_near_segment`).

Canvas/Tk presentation state (canvas ids, line ids, animation) is excluded:
it carries no graph semantics.  Python dicts are modelled as association
lists that preserve insertion order (Python 3.7+ dict semantics); `frozenset`
edge keys are modelled as `Finset String`; Python sets as `Finset String`;
numeric values as rationals.  The unbounded `while` loops of `bfs`/`dfs`
are modelled with an explicit fuel parameter proved sufficient below.
-/

namespace CampusNav

abbrev Name := String

/-- `Node` from `apply.py` (presentation fields `canvas_id`, `text_id` omitted). -/
structure Node where
  name : Name
  x : ℚ
  y : ℚ
  deriving DecidableEq

/-- `Edge` from `apply.py` (presentation fields `line_id`, `label_id` omitted).
`closed` defaults to `false` in the Python constructor; `Graph.connect` below
passes only the first five arguments, so inserted edges have `closed = false`. -/
structure Edge where
  a : Name
  b : Name
  distance : ℚ
  tm : ℚ
  accessible : Bool
  closed : Bool
  deriving DecidableEq

/-- `Edge.other`: `return self.b if name == self.a else self.a`. -/
def Edge.other (e : Edge) (name : Name) : Name :=
  if name = e.a then e.b else e.a

/-- `Graph`: `self.nodes` is a dict from name to `Node`, `self.edges` a dict
from `frozenset({a, b})` to `Edge`.  Both modelled as insertion-ordered
association lists; the `frozenset` key is a `Finset Name`. -/
structure Graph where
  nodes : List (Name × Node)
  edges : List (Finset Name × Edge)
  deriving DecidableEq

/-- `Graph.__init__`: empty node and edge dicts. -/
def Graph.empty : Graph := ⟨[], []⟩

/-- `name in self.nodes` (dict key membership). -/
def Graph.hasNode (g : Graph) (name : Name) : Bool :=
  g.nodes.any fun p => p.1 == name

/-- `k in self.edges` (dict key membership). -/
def Graph.hasEdgeKey (g : Graph) (k : Finset Name) : Bool :=
  g.edges.any fun p => p.1 == k

/-- The error taxonomy of §7 of the design: the Python code raises
`ValueError` with a distinguishing message in each case. -/
inductive GraphErr where
  /-- `add_node`: "Duplicate node name '...'" -/
  | duplicateName
  /-- `connect`: "Both nodes must exist" -/
  | missingEndpoint
  /-- `connect`: "Cannot connect node to itself" -/
  | selfLoop
  /-- `connect`: "Edge already exists" -/
  | duplicateEdge
  deriving DecidableEq

/-- `Graph.add_node`: raise on duplicate name, else insert a fresh `Node`.
A raising call leaves the state untouched, so the state component of the
result is the input graph. -/
def Graph.add_node (g : Graph) (name : Name) (x y : ℚ) : Option GraphErr × Graph :=
  if g.hasNode name then (some .duplicateName, g)
  else (none, ⟨g.nodes ++ [(name, ⟨name, x, y⟩)], g.edges⟩)

/-- `Graph.remove_node`: no-op if absent; otherwise delete every edge whose
key contains `name`, then delete the node. -/
def Graph.remove_node (g : Graph) (name : Name) : Graph :=
  if g.hasNode name then
    ⟨g.nodes.filter (fun p => p.1 != name),
     g.edges.filter (fun p => !decide (name ∈ p.1))⟩
  else g

/-- `Graph.connect`: checks in source order (missing endpoint, self-loop,
duplicate edge), then inserts `Edge(a, b, distance, time, accessible)`
(so `closed = false`) under key `frozenset({a, b})`. -/
def Graph.connect (g : Graph) (a b : Name) (distance tm : ℚ) (accessible : Bool) :
    Option GraphErr × Graph :=
  if ¬ g.hasNode a ∨ ¬ g.hasNode b then (some .missingEndpoint, g)
  else if a = b then (some .selfLoop, g)
  else if g.hasEdgeKey {a, b} then (some .duplicateEdge, g)
  else (none, ⟨g.nodes, g.edges ++ [({a, b}, ⟨a, b, distance, tm, accessible, false⟩)]⟩)

/-- `Graph.disconnect`: delete the edge for `frozenset({a, b})` if present. -/
def Graph.disconnect (g : Graph) (a b : Name) : Graph :=
  ⟨g.nodes, g.edges.filter (fun p => p.1 != ({a, b} : Finset Name))⟩

/-- `Graph.neighbors`: iterate the edge dict in order; for each edge whose key
contains `name`, skip it when `closed and not allow_closed` or when
`accessible_only and not accessible`, else emit `e.other(name)`. -/
def Graph.neighbors (g : Graph) (name : Name) (accessibleOnly allowClosed : Bool) :
    List Name :=
  g.edges.filterMap fun p =>
    if name ∈ p.1 then
      if p.2.closed && !allowClosed then none
      else if accessibleOnly && !p.2.accessible then none
      else some (p.2.other name)
    else none

/-- `Graph.get_edge`: dict lookup under the unordered key. -/
def Graph.get_edge (g : Graph) (a b : Name) : Option Edge :=
  (g.edges.find? fun p => p.1 == ({a, b} : Finset Name)).map Prod.snd

/-! ### Traversal engine -/
/-- Lexicographic comparison of char lists by code point — the order Python
uses on strings. -/
def strLeAux : List Char → List Char → Bool
  | [], _ => true
  | _ :: _, [] => false
  | c :: cs, d :: ds =>
    if c.toNat < d.toNat then true
    else if d.toNat < c.toNat then false
    else strLeAux cs ds

/-- `a <= b` on strings, lexicographic by code point. -/
def strLe (a b : Name) : Bool := strLeAux a.data b.data

/-- Insert into a descending (largest-first) list, keeping earlier equal
elements first, as Python's stable sort does. -/
def insDesc (x : Name) : List Name → List Name
  | [] => [x]
  | y :: ys => if strLe x y then y :: insDesc x ys else x :: y :: ys

/-- `nb_list.sort(reverse=True)`: sort into descending lexicographic order. -/
def sortDesc : List Name → List Name
  | [] => []
  | x :: xs => insDesc x (sortDesc xs)

/-- `parent` dict lookup (`parent[n]`): `none` models a `KeyError`. -/
def lookupPar (par : List (Name × Option Name)) (n : Name) : Option (Option Name) :=
  (par.find? fun q => q.1 == n).map Prod.snd

/-- The path-reconstruction loop of `bfs`:
`while n is not None: path.append(n); n = parent[n]`, then `path.reverse()`.
Fuel-limited; `none` models running out of fuel or a `KeyError`, neither of
which occurs in a real run (proved below). -/
def buildPath : Nat → List (Name × Option Name) → Name → Option (List Name)
  | 0, _, _ => none
  | fuel + 1, par, n =>
    match lookupPar par n with
    | none => none
    | some none => some [n]
    | some (some u) => (buildPath fuel par u).map (fun p => p ++ [n])

/-- One `bfs` neighbor step:
`if nb not in visited: visited.add(nb); parent[nb] = cur; q.append(nb)`.
The state is (visited, queue-after-popleft, parent). -/
def bfsEnq (cur : Name) (st : Finset Name × List Name × List (Name × Option Name))
    (nb : Name) : Finset Name × List Name × List (Name × Option Name) :=
  if nb ∈ st.1 then st
  else (insert nb st.1, st.2.1 ++ [nb], (nb, some cur) :: st.2.2)

/-- The `while q:` loop of `bfs`, with fuel.  The queue has its front at the
head (`popleft` pops the head, `append` pushes at the end).  `none` models
running out of fuel (never happens with the fuel used by `bfs`). -/
def bfsAux (g : Graph) (goal : Name) (accessibleOnly allowClosed : Bool) :
    Nat → Finset Name → List Name → List (Name × Option Name) → List Name →
    Option (Option (List Name) × List Name)
  | 0, _, _, _, _ => none
  | fuel + 1, vis, q, par, vo =>
    match q with
    | [] => some (none, vo)
    | cur :: rest =>
      if cur = goal then
        match buildPath (vis.card + 1) par cur with
        | none => none
        | some p => some (some p, vo ++ [cur])
      else
        let st := (g.neighbors cur accessibleOnly allowClosed).foldl (bfsEnq cur)
          (vis, rest, par)
        bfsAux g goal accessibleOnly allowClosed fuel st.1 st.2.1 st.2.2 (vo ++ [cur])

/-- Endpoint names occurring in the graph's edge records, plus `start`: a
finite universe containing every node a traversal from `start` can touch. -/
def touched (g : Graph) (start : Name) : Finset Name :=
  insert start (g.edges.foldr (fun p acc => insert p.2.a (insert p.2.b acc)) ∅)

/-- Fuel sufficient for the `bfs` loop (proved below). -/
def bfsFuel (g : Graph) (start : Name) : Nat := 2 * (touched g start).card + 2

/-- `bfs(graph, start, goal, accessible_only, allow_closed)`: FIFO frontier
seeded with `start`, visited seeded `{start}`, `parent = {start: None}`.
The `.getD` default is never reached (fuel sufficiency is proved below). -/
def bfs (g : Graph) (start goal : Name) (accessibleOnly allowClosed : Bool) :
    Option (List Name) × List Name :=
  (bfsAux g goal accessibleOnly allowClosed (bfsFuel g start)
    {start} [start] [(start, none)] []).getD (none, [])

/-- The `while stack:` loop of `dfs`, with fuel.  The stack has its top at the
head; Python pushes with `append` and pops with `pop` at the list's end, so a
descending-sorted batch pushed in order is reversed here before consing. -/
def dfsAux (g : Graph) (goal : Name) (accessibleOnly allowClosed : Bool) :
    Nat → Finset Name → List (Name × List Name) → List Name →
    Option (Option (List Name) × List Name)
  | 0, _, _, _ => none
  | fuel + 1, vis, stack, vo =>
    match stack with
    | [] => some (none, vo)
    | (cur, path) :: rest =>
      if cur ∈ vis then dfsAux g goal accessibleOnly allowClosed fuel vis rest vo
      else
        let vis' := insert cur vis
        if cur = goal then some (some path, vo ++ [cur])
        else
          let nbs := sortDesc (g.neighbors cur accessibleOnly allowClosed)
          let pushed := (nbs.filter fun nb => decide (nb ∉ vis')).map
            fun nb => (nb, path ++ [nb])
          dfsAux g goal accessibleOnly allowClosed fuel vis'
            (pushed.reverse ++ rest) (vo ++ [cur])

/-- Fuel sufficient for the `dfs` loop (proved below). -/
def dfsFuel (g : Graph) (start : Name) : Nat :=
  (touched g start).card * (g.edges.length + 2) + 2

/-- `dfs(graph, start, goal, accessible_only, allow_closed)`: explicit stack
of `(node, path_so_far)` seeded with `(start, [start])`, empty visited set.
The `.getD` default is never reached (fuel sufficiency is proved below). -/
def dfs (g : Graph) (start goal : Name) (accessibleOnly allowClosed : Bool) :
    Option (List Name) × List Name :=
  (dfsAux g goal accessibleOnly allowClosed (dfsFuel g start)
    ∅ [(start, [start])] []).getD (none, [])

/-- Modelled from the spec: the reference DFS of §4.2 as read by the
refinement claim — identical to `dfsAux` except that visited membership is
checked only at pop time, never at push time: every sorted neighbor is
pushed, so a node may sit on the stack several times before being popped. -/
def dfsSpecAux (g : Graph) (goal : Name) (accessibleOnly allowClosed : Bool) :
    Nat → Finset Name → List (Name × List Name) → List Name →
    Option (Option (List Name) × List Name)
  | 0, _, _, _ => none
  | fuel + 1, vis, stack, vo =>
    match stack with
    | [] => some (none, vo)
    | (cur, path) :: rest =>
      if cur ∈ vis then dfsSpecAux g goal accessibleOnly allowClosed fuel vis rest vo
      else
        let vis' := insert cur vis
        if cur = goal then some (some path, vo ++ [cur])
        else
          let nbs := sortDesc (g.neighbors cur accessibleOnly allowClosed)
          let pushed := nbs.map fun nb => (nb, path ++ [nb])
          dfsSpecAux g goal accessibleOnly allowClosed fuel vis'
            (pushed.reverse ++ rest) (vo ++ [cur])

/-- Modelled from the spec: wrapper for the pop-time-check reference DFS. -/
def dfsSpec (g : Graph) (start goal : Name) (accessibleOnly allowClosed : Bool) :
    Option (List Name) × List Name :=
  (dfsSpecAux g goal accessibleOnly allowClosed (dfsFuel g start)
    ∅ [(start, [start])] []).getD (none, [])

/-! ### Geometry helper -/
/-- `point_near_segment(px, py, x1, y1, x2, y2, threshold)` from `apply.py`,
over exact rationals. -/
def point_near_segment (px py x1 y1 x2 y2 threshold : ℚ) : Bool :=
  let dx := x2 - x1
  let dy := y2 - y1
  if dx = 0 ∧ dy = 0 then
    decide ((px - x1) ^ 2 + (py - y1) ^ 2 ≤ threshold * threshold)
  else
    let t := ((px - x1) * dx + (py - y1) * dy) / (dx * dx + dy * dy)
    let t' := max 0 (min 1 t)
    let projx := x1 + t' * dx
    let projy := y1 + t' * dy
    decide ((px - projx) ^ 2 + (py - projy) ^ 2 ≤ threshold * threshold)

def endpointsF (l : List (Finset Name × Edge)) : Finset Name :=
  l.foldr (fun p acc => insert p.2.a (insert p.2.b acc)) ∅

/-! ### Mutation sequences and structural invariants -/
/-- The four mutation operations of the claim, with the arguments the UI
layer passes. -/
inductive Op where
  | add_node (name : Name) (x y : ℚ)
  | remove_node (name : Name)
  | connect (a b : Name) (distance tm : ℚ) (accessible : Bool)
  | disconnect (a b : Name)

/-- Run one mutation; a raising mutation leaves the graph unchanged
(each Python check precedes any mutation). -/
def applyOp (g : Graph) : Op → Graph
  | .add_node n x y => (g.add_node n x y).2
  | .remove_node n => g.remove_node n
  | .connect a b d t acc => (g.connect a b d t acc).2
  | .disconnect a b => g.disconnect a b

/-- Run a sequence of mutations starting from the empty graph. -/
def applyOps (ops : List Op) : Graph := ops.foldl applyOp Graph.empty

/-- Structural well-formedness: every edge entry's key is the unordered pair
of its endpoint fields, endpoints are distinct and are node keys, and both
dicts have no duplicate keys. -/
def Wf (g : Graph) : Prop :=
  (∀ p ∈ g.edges, p.1 = ({p.2.a, p.2.b} : Finset Name) ∧ p.2.a ≠ p.2.b ∧
     g.hasNode p.2.a = true ∧ g.hasNode p.2.b = true) ∧
  (g.edges.map Prod.fst).Nodup ∧ (g.nodes.map Prod.fst).Nodup

/-! ### Scenario graphs (built through the mutation API) -/
/-- Scenario C of §8: nodes {X, Y, Z}, edge X–Y accessible, edge X–Z
non-accessible. -/
def scenarioC : Graph :=
  applyOps [.add_node "X" 0 0, .add_node "Y" 1 0, .add_node "Z" 2 0,
    .connect "X" "Y" 1 1 true, .connect "X" "Z" 1 1 false]

/-- Scenario A of §8: nodes {X, Y, Z}, open accessible edges X–Y and Y–Z. -/
def scenarioA : Graph :=
  applyOps [.add_node "X" 0 0, .add_node "Y" 1 0, .add_node "Z" 2 0,
    .connect "X" "Y" 1 1 true, .connect "Y" "Z" 1 1 true]

/-! ### Claim C9 -/
/-- Modelled from the spec: the projection parameter
`t = ((P-A)·(B-A)) / |B-A|²` of the point-to-segment distance test. -/
def segParam (px py x1 y1 x2 y2 : ℚ) : ℚ :=
  ((px - x1) * (x2 - x1) + (py - y1) * (y2 - y1)) /
    ((x2 - x1) ^ 2 + (y2 - y1) ^ 2)

/-- Modelled from the spec: clamp `t` to `[0, 1]`. -/
def clamp01 (t : ℚ) : ℚ := max 0 (min 1 t)

/-! ### Paths and traversal invariants -/
/-- One-hop adjacency through the filtered neighbor query. -/
def Adj (g : Graph) (ao ac : Bool) (u v : Name) : Prop :=
  v ∈ g.neighbors u ao ac

/-- `p` is a path from `s` to `t` every hop of which passes the filters. -/
def ValidPath (g : Graph) (ao ac : Bool) (s t : Name) (p : List Name) : Prop :=
  p.head? = some s ∧ p.getLast? = some t ∧ List.Chain' (Adj g ao ac) p

/-- The visited-order guarantee: every recorded node is the start or was
expanded from some other recorded node through a passing edge. -/
def VoSound (g : Graph) (ao ac : Bool) (s : Name) (vo : List Name) : Prop :=
  ∀ v ∈ vo, v = s ∨ ∃ u ∈ vo, Adj g ao ac u v

/-- Termination measure of the DFS loop: unvisited-universe size weighted
by the maximal number of pushes per step, plus the stack length. -/
def dfsMeasure (g : Graph) (s : Name) (vis : Finset Name)
    (stack : List (Name × List Name)) : Nat :=
  (touched g s \ vis).card * (g.edges.length + 2) + stack.length

/-! ### DFS refinement: pop-time-check reference vs the code -/
/-- Stack entries whose node is still unvisited: the entries that can still
influence a run. -/
def liveStack (vis : Finset Name) (st : List (Name × List Name)) :
    List (Name × List Name) :=
  st.filter fun e => decide (e.1 ∉ vis)

/-- The invariant of the BFS loop state, with a ghost level function `D`:
`D v` is the hop count recorded for a visited node by its parent chain. -/
structure BfsInv (g : Graph) (ao ac : Bool) (s : Name) (vis : Finset Name)
    (q : List Name) (par : List (Name × Option Name)) (vo : List Name)
    (D : Name → Nat) : Prop where
  start_vis : s ∈ vis
  start_par : lookupPar par s = some none
  start_D : D s = 0
  par_step : ∀ v ∈ vis, v ≠ s → ∃ u, lookupPar par v = some (some u) ∧
    u ∈ vis ∧ Adj g ao ac u v ∧ D v = D u + 1
  q_nodup : q.Nodup
  q_vis : ∀ x ∈ q, x ∈ vis
  q_sorted : q.Pairwise (fun a b => D a ≤ D b)
  q_twolevel : ∀ a ∈ q, ∀ b ∈ q, D b ≤ D a + 1
  closed_expanded : ∀ u ∈ vis, u ∉ q → ∀ v, Adj g ao ac u v →
    v ∈ vis ∧ D v ≤ D u + 1
  dequeued_le : ∀ u ∈ vis, u ∉ q → ∀ x ∈ q, D u ≤ D x
  vis_touched : vis ⊆ touched g s
  vo_prov : ∀ v ∈ vis, v = s ∨ ∃ u ∈ vo, Adj g ao ac u v
  vo_vis : ∀ v ∈ vo, v ∈ vis

/-! ### Basic lemmas about the model -/
theorem mem_insDesc {a x : Name} {l : List Name} :
    a ∈ insDesc x l ↔ a = x ∨ a ∈ l := by
  induction l with
  | nil => simp [insDesc]
  | cons y ys ih =>
    unfold insDesc
    split
    · simp [ih]; tauto
    · simp

theorem mem_sortDesc {a : Name} {l : List Name} : a ∈ sortDesc l ↔ a ∈ l := by
  induction l with
  | nil => simp [sortDesc]
  | cons x xs ih => simp [sortDesc, mem_insDesc, ih]

theorem length_insDesc (x : Name) (l : List Name) :
    (insDesc x l).length = l.length + 1 := by
  induction l with
  | nil => simp [insDesc]
  | cons y ys ih =>
    unfold insDesc
    split
    · simp [ih]
    · simp

theorem length_sortDesc (l : List Name) : (sortDesc l).length = l.length := by
  induction l with
  | nil => simp [sortDesc]
  | cons x xs ih => simp [sortDesc, length_insDesc, ih]

/-- Membership characterization of `Graph.neighbors`: exactly the far
endpoints of edges containing `name` that pass both filters. -/
theorem mem_neighbors {g : Graph} {name v : Name} {ao ac : Bool} :
    v ∈ g.neighbors name ao ac ↔
      ∃ p ∈ g.edges, name ∈ p.1 ∧ (p.2.closed && !ac) = false ∧
        (ao && !p.2.accessible) = false ∧ p.2.other name = v := by
  unfold Graph.neighbors
  rw [List.mem_filterMap]
  refine exists_congr fun p => and_congr_right fun _ => ?_
  by_cases h1 : name ∈ p.1
  · by_cases h2 : (p.2.closed && !ac) = true
    · simp [h1, h2]
    · by_cases h3 : (ao && !p.2.accessible) = true
      · simp [h1, h2, h3]
      · simp only [Bool.not_eq_true] at h2 h3
        simp [h1, h2, h3, eq_comm]
  · simp [h1]

theorem length_neighbors_le (g : Graph) (name : Name) (ao ac : Bool) :
    (g.neighbors name ao ac).length ≤ g.edges.length :=
  List.length_filterMap_le _ _

theorem endpoints_mem_endpointsF {l : List (Finset Name × Edge)}
    {p : Finset Name × Edge} (hp : p ∈ l) :
    p.2.a ∈ endpointsF l ∧ p.2.b ∈ endpointsF l := by
  induction l with
  | nil => cases hp
  | cons q qs ih =>
    rcases List.mem_cons.1 hp with h | h
    · subst h; simp [endpointsF]
    · have := ih h
      simp only [endpointsF, List.foldr_cons, Finset.mem_insert]
      exact ⟨Or.inr (Or.inr this.1), Or.inr (Or.inr this.2)⟩

theorem touched_eq (g : Graph) (s : Name) :
    touched g s = insert s (endpointsF g.edges) := rfl

theorem start_mem_touched (g : Graph) (s : Name) : s ∈ touched g s := by
  simp [touched_eq]

theorem other_mem {e : Edge} {u : Name} : e.other u = e.a ∨ e.other u = e.b := by
  unfold Edge.other
  split
  · exact Or.inr rfl
  · exact Or.inl rfl

theorem neighbors_subset_touched {g : Graph} {u v s : Name} {ao ac : Bool}
    (h : v ∈ g.neighbors u ao ac) : v ∈ touched g s := by
  rcases mem_neighbors.1 h with ⟨p, hp, -, -, -, ho⟩
  have := endpoints_mem_endpointsF hp
  rcases @other_mem p.2 u with h' | h' <;>
    · rw [touched_eq, Finset.mem_insert, ← ho, h']
      tauto

theorem hasNode_iff {g : Graph} {n : Name} :
    g.hasNode n = true ↔ n ∈ g.nodes.map Prod.fst := by
  simp [Graph.hasNode, List.any_eq_true]

theorem hasEdgeKey_iff {g : Graph} {k : Finset Name} :
    g.hasEdgeKey k = true ↔ k ∈ g.edges.map Prod.fst := by
  simp [Graph.hasEdgeKey, List.any_eq_true]

theorem wf_empty : Wf Graph.empty := by
  refine ⟨?_, ?_, ?_⟩ <;> simp [Graph.empty]

theorem hasNode_add_node {g : Graph} {n m : Name} {x y : ℚ}
    (h : g.hasNode m = true) : ((g.add_node n x y).2).hasNode m = true := by
  unfold Graph.add_node
  split
  · exact h
  · rw [hasNode_iff] at h ⊢
    simp only [List.map_append]
    exact List.mem_append_left _ h

theorem wf_add_node {g : Graph} (hg : Wf g) (n : Name) (x y : ℚ) :
    Wf (g.add_node n x y).2 := by
  by_cases h : g.hasNode n = true
  · simpa [Graph.add_node, h] using hg
  · obtain ⟨he, hek, hnk⟩ := hg
    refine ⟨?_, ?_, ?_⟩
    · intro p hp
      have hp' : p ∈ g.edges := by simpa [Graph.add_node, h] using hp
      obtain ⟨h1, h2, h3, h4⟩ := he p hp'
      exact ⟨h1, h2, hasNode_add_node h3, hasNode_add_node h4⟩
    · simpa [Graph.add_node, h] using hek
    · have : n ∉ g.nodes.map Prod.fst := fun hc => h (hasNode_iff.2 hc)
      simp only [Graph.add_node, h, if_neg, Bool.false_eq_true, if_false,
        List.map_append, List.map_cons, List.map_nil]
      refine List.Nodup.append hnk (List.nodup_singleton _) ?_
      intro a ha hb
      rw [List.mem_singleton] at hb
      exact this (hb ▸ ha)

theorem wf_remove_node {g : Graph} (hg : Wf g) (n : Name) :
    Wf (g.remove_node n) := by
  obtain ⟨he, hek, hnk⟩ := hg
  unfold Graph.remove_node
  split
  · refine ⟨?_, ?_, ?_⟩
    · intro p hp
      rw [List.mem_filter] at hp
      obtain ⟨hp', hcond⟩ := hp
      have hnp : n ∉ p.1 := by simpa using hcond
      obtain ⟨h1, h2, h3, h4⟩ := he p hp'
      have ha : p.2.a ∈ p.1 := by rw [h1]; exact Finset.mem_insert_self _ _
      have hb : p.2.b ∈ p.1 := by
        rw [h1]; exact Finset.mem_insert_of_mem (Finset.mem_singleton_self _)
      refine ⟨h1, h2, ?_, ?_⟩
      · rw [hasNode_iff] at h3 ⊢
        rw [List.mem_map] at h3 ⊢
        obtain ⟨q, hq, hq2⟩ := h3
        have hne : q.1 ≠ n := by rw [hq2]; intro hEq; exact hnp (hEq ▸ ha)
        exact ⟨q, List.mem_filter.2 ⟨hq, by simpa [bne_iff_ne] using hne⟩, hq2⟩
      · rw [hasNode_iff] at h4 ⊢
        rw [List.mem_map] at h4 ⊢
        obtain ⟨q, hq, hq2⟩ := h4
        have hne : q.1 ≠ n := by rw [hq2]; intro hEq; exact hnp (hEq ▸ hb)
        exact ⟨q, List.mem_filter.2 ⟨hq, by simpa [bne_iff_ne] using hne⟩, hq2⟩
    · exact (((List.filter_sublist _).map Prod.fst).nodup hek)
    · exact (((List.filter_sublist _).map Prod.fst).nodup hnk)
  · exact ⟨he, hek, hnk⟩

theorem wf_connect {g : Graph} (hg : Wf g) (a b : Name) (d t : ℚ) (acc : Bool) :
    Wf (g.connect a b d t acc).2 := by
  obtain ⟨he, hek, hnk⟩ := hg
  unfold Graph.connect
  split
  · exact ⟨he, hek, hnk⟩
  · split
    · exact ⟨he, hek, hnk⟩
    · split
      · exact ⟨he, hek, hnk⟩
      · rename_i hmiss hab hdup
        push_neg at hmiss
        refine ⟨?_, ?_, hnk⟩
        · intro p hp
          rcases List.mem_append.1 hp with hp' | hp'
          · obtain ⟨h1, h2, h3, h4⟩ := he p hp'
            exact ⟨h1, h2, h3, h4⟩
          · rw [List.mem_singleton] at hp'
            subst hp'
            exact ⟨rfl, hab, hmiss.1, hmiss.2⟩
        · rw [List.map_append, List.map_cons, List.map_nil]
          refine List.Nodup.append hek (List.nodup_singleton _) ?_
          intro k hk hk'
          rw [List.mem_singleton] at hk'
          subst hk'
          exact hdup (hasEdgeKey_iff.2 hk)

theorem wf_disconnect {g : Graph} (hg : Wf g) (a b : Name) :
    Wf (g.disconnect a b) := by
  obtain ⟨he, hek, hnk⟩ := hg
  refine ⟨?_, ?_, hnk⟩
  · intro p hp
    have hp' := List.mem_of_mem_filter hp
    exact he p hp'
  · exact (((List.filter_sublist _).map Prod.fst).nodup hek)

theorem wf_applyOp {g : Graph} (hg : Wf g) (op : Op) : Wf (applyOp g op) := by
  cases op with
  | add_node n x y => exact wf_add_node hg n x y
  | remove_node n => exact wf_remove_node hg n
  | connect a b d t acc => exact wf_connect hg a b d t acc
  | disconnect a b => exact wf_disconnect hg a b

theorem wf_foldl {g : Graph} (hg : Wf g) (ops : List Op) :
    Wf (ops.foldl applyOp g) := by
  induction ops generalizing g with
  | nil => exact hg
  | cons op ops ih => exact ih (wf_applyOp hg op)

theorem wf_applyOps (ops : List Op) : Wf (applyOps ops) :=
  wf_foldl wf_empty ops

/-! ### Claim C2 -/
/-- C2: after any sequence of add_node / remove_node / connect / disconnect
starting from the empty graph, every edge's endpoint names are keys of the
node mapping, no edge has equal endpoints, and no two distinct edge entries
share the same unordered endpoint pair. -/
theorem claim_C2_mutation_invariants (ops : List Op) :
    (∀ p ∈ (applyOps ops).edges,
        (∀ m ∈ p.1, (applyOps ops).hasNode m = true) ∧ p.2.a ≠ p.2.b) ∧
    ((applyOps ops).edges.map Prod.fst).Nodup := by
  obtain ⟨he, hek, _⟩ := wf_applyOps ops
  refine ⟨fun p hp => ?_, hek⟩
  obtain ⟨h1, h2, h3, h4⟩ := he p hp
  refine ⟨fun m hm => ?_, h2⟩
  rw [h1] at hm
  rcases Finset.mem_insert.1 hm with rfl | hm
  · exact h3
  · rw [Finset.mem_singleton.1 hm]
    exact h4

/-! ### Claim C3 -/
/-- C3: `neighbors(name, accessibleOnly, allowClosed)` yields exactly the
far endpoints of edges at `name` that are not filtered out — an edge is
skipped iff `closed && !allowClosed` or `accessibleOnly && !accessible`
(the two filters combined with AND); and in Scenario C,
`neighbors(X, true, false)` yields `{Y}` only. -/
theorem claim_C3_neighbors_filtering :
    (∀ (g : Graph) (name v : Name) (ao ac : Bool),
        v ∈ g.neighbors name ao ac ↔
          ∃ p ∈ g.edges, name ∈ p.1 ∧ (p.2.closed && !ac) = false ∧
            (ao && !p.2.accessible) = false ∧ p.2.other name = v) ∧
    scenarioC.neighbors "X" true false = ["Y"] :=
  ⟨fun _ _ _ _ _ => mem_neighbors, by rfl⟩

/-! ### Claim C4 -/
/-- C4: `connect` fails with MissingEndpointError when an endpoint is absent,
SelfLoopError when the endpoints coincide, DuplicateEdgeError when the
unordered pair already has an edge; on success it appends a new edge with
`closed = false`; on every failure the graph is returned unchanged. -/
theorem claim_C4_connect (g : Graph) (a b : Name) (d t : ℚ) (acc : Bool) :
    (¬ (g.hasNode a = true ∧ g.hasNode b = true) →
      g.connect a b d t acc = (some .missingEndpoint, g)) ∧
    (g.hasNode a = true → g.hasNode b = true → a = b →
      g.connect a b d t acc = (some .selfLoop, g)) ∧
    (g.hasNode a = true → g.hasNode b = true → a ≠ b →
      g.hasEdgeKey {a, b} = true →
      g.connect a b d t acc = (some .duplicateEdge, g)) ∧
    (g.hasNode a = true → g.hasNode b = true → a ≠ b →
      g.hasEdgeKey {a, b} = false →
      ∃ e : Edge, (g.connect a b d t acc).1 = none ∧
        (g.connect a b d t acc).2.nodes = g.nodes ∧
        (g.connect a b d t acc).2.edges = g.edges ++ [(({a, b} : Finset Name), e)] ∧
        e.closed = false ∧ e.a = a ∧ e.b = b) ∧
    (∀ err, (g.connect a b d t acc).1 = some err →
      (g.connect a b d t acc).2 = g) := by
  refine ⟨fun h => ?_, fun ha hb hab => ?_, fun ha hb hab hk => ?_,
    fun ha hb hab hk => ?_, fun err herr => ?_⟩
  · unfold Graph.connect
    rw [if_pos (not_and_or.mp h)]
  · simp [Graph.connect, ha, hb, hab]
  · simp [Graph.connect, ha, hb, hab, hk]
  · refine ⟨⟨a, b, d, t, acc, false⟩, ?_⟩
    simp [Graph.connect, ha, hb, hab, hk]
  · unfold Graph.connect at herr ⊢
    by_cases h1 : ¬ g.hasNode a = true ∨ ¬ g.hasNode b = true
    · rw [if_pos h1]
    · rw [if_neg h1] at herr ⊢
      by_cases h2 : a = b
      · rw [if_pos h2]
      · rw [if_neg h2] at herr ⊢
        by_cases h3 : g.hasEdgeKey {a, b} = true
        · rw [if_pos h3]
        · rw [if_neg h3] at herr
          simp at herr

/-- Witness for C4, on Scenario A: connecting the already-connected pair
X–Y fails with the duplicate-edge error and leaves the graph unchanged. -/
theorem claim_C4_connect_witness :
    scenarioA.hasNode "X" = true ∧ scenarioA.hasNode "Y" = true ∧
      "X" ≠ "Y" ∧ scenarioA.hasEdgeKey {"X", "Y"} = true ∧
      scenarioA.connect "X" "Y" 1 1 true = (some .duplicateEdge, scenarioA) :=
  ⟨by rfl, by rfl, by decide, by rfl,
    (claim_C4_connect scenarioA "X" "Y" 1 1 true).2.2.1 (by rfl) (by rfl)
      (by decide) (by rfl)⟩

/-! ### Claim C7 -/
/-- C7: `remove_node(name)` is a no-op (not an error) when absent; otherwise
it deletes the node and exactly the edges whose endpoint pair contains it,
and afterwards `neighbors` never returns the removed name for any remaining
node under any filter settings. -/
theorem claim_C7_remove_node (g : Graph) (n : Name) :
    (g.hasNode n = false → g.remove_node n = g) ∧
    ((g.remove_node n).hasNode n = false) ∧
    (g.hasNode n = true →
      ∀ p : Finset Name × Edge,
        p ∈ (g.remove_node n).edges ↔ p ∈ g.edges ∧ n ∉ p.1) ∧
    (g.hasNode n = true →
      (∀ p ∈ g.edges, p.1 = ({p.2.a, p.2.b} : Finset Name)) →
      ∀ (n' : Name) (ao ac : Bool), n ∉ (g.remove_node n).neighbors n' ao ac) := by
  refine ⟨fun h => ?_, ?_, fun h p => ?_, fun h hk n' ao ac hmem => ?_⟩
  · simp [Graph.remove_node, h]
  · unfold Graph.remove_node
    split
    · rename_i h
      rw [Bool.eq_false_iff]
      intro hc
      rw [hasNode_iff, List.mem_map] at hc
      obtain ⟨q, hq, hq2⟩ := hc
      rw [List.mem_filter] at hq
      have := hq.2
      rw [bne_iff_ne] at this
      exact this hq2
    · rename_i h
      exact Bool.not_eq_true _ ▸ (by simpa using h)
  · rw [Graph.remove_node, if_pos h]
    rw [List.mem_filter]
    simp
  · rw [Graph.remove_node, if_pos h] at hmem
    rcases mem_neighbors.1 hmem with ⟨p, hp, hin, -, -, ho⟩
    rw [List.mem_filter] at hp
    obtain ⟨hp', hcond⟩ := hp
    have hnp : n ∉ p.1 := by simpa using hcond
    have hk' := hk p hp'
    have : n ∈ p.1 := by
      rw [hk']
      rcases @other_mem p.2 n' with h' | h' <;> rw [← ho, h']
      · exact Finset.mem_insert_self _ _
      · exact Finset.mem_insert_of_mem (Finset.mem_singleton_self _)
    exact hnp this

/-- Witness for C7, on Scenario A: removing Y deletes both incident edges,
and X's neighbor list no longer mentions Y. -/
theorem claim_C7_remove_node_witness :
    scenarioA.hasNode "Y" = true ∧
      (∀ p ∈ scenarioA.edges, p.1 = ({p.2.a, p.2.b} : Finset Name)) ∧
      "Y" ∉ (scenarioA.remove_node "Y").neighbors "X" false false :=
  ⟨by rfl, by decide,
    (claim_C7_remove_node scenarioA "Y").2.2.2 (by rfl) (by decide) "X" false false⟩

/-- C9: the hit test treats a degenerate segment as a point
(`|P-A|² ≤ T²`), otherwise projects onto the line, clamps the parameter to
`[0,1]` and compares the squared distance to the clamped projection point
with `T²`; for the segment (0,0)–(10,0) with threshold 6, point (5,10) is
no hit and point (5,4) is a hit. -/
theorem claim_C9_point_near_segment (px py x1 y1 x2 y2 threshold : ℚ) :
    ((x2 - x1 = 0 ∧ y2 - y1 = 0) →
      (point_near_segment px py x1 y1 x2 y2 threshold = true ↔
        (px - x1) ^ 2 + (py - y1) ^ 2 ≤ threshold ^ 2)) ∧
    (¬ (x2 - x1 = 0 ∧ y2 - y1 = 0) →
      (point_near_segment px py x1 y1 x2 y2 threshold = true ↔
        (px - (x1 + clamp01 (segParam px py x1 y1 x2 y2) * (x2 - x1))) ^ 2 +
          (py - (y1 + clamp01 (segParam px py x1 y1 x2 y2) * (y2 - y1))) ^ 2
            ≤ threshold ^ 2)) ∧
    point_near_segment 5 10 0 0 10 0 6 = false ∧
    point_near_segment 5 4 0 0 10 0 6 = true := by
  refine ⟨fun h => ?_, fun h => ?_, ?_, ?_⟩
  · simp only [point_near_segment]
    rw [if_pos h]
    simp only [decide_eq_true_eq, pow_two]
  · simp only [point_near_segment]
    rw [if_neg h]
    simp only [decide_eq_true_eq, segParam, clamp01, pow_two]
  · simp only [point_near_segment]
    split_ifs with hc
    · exfalso; norm_num at hc
    · rw [decide_eq_false_iff_not]
      norm_num [min_def, max_def]
  · simp only [point_near_segment]
    split_ifs with hc
    · exfalso; norm_num at hc
    · rw [decide_eq_true_eq]
      norm_num [min_def, max_def]

/-- Witness for C9: a degenerate segment (both endpoints (1,1)) with
threshold 2 registers a hit for the point (2,2). -/
theorem claim_C9_point_near_segment_witness :
    ((1 : ℚ) - 1 = 0 ∧ (1 : ℚ) - 1 = 0) ∧
      (point_near_segment 2 2 1 1 1 1 2 = true ↔
        ((2 : ℚ) - 1) ^ 2 + ((2 : ℚ) - 1) ^ 2 ≤ (2 : ℚ) ^ 2) :=
  ⟨⟨by norm_num, by norm_num⟩,
    (claim_C9_point_near_segment 2 2 1 1 1 1 2).1 ⟨by norm_num, by norm_num⟩⟩

/-! ### Claim C10 -/
/-- C10: when start equals goal, both `bfs` and `dfs` return path `[start]`
and visited order `[start]`, for every graph and filter settings — no edge
is consulted, and `start` need not even be a node of the graph. -/
theorem claim_C10_start_eq_goal (g : Graph) (s : Name) (ao ac : Bool) :
    bfs g s s ao ac = (some [s], [s]) ∧ dfs g s s ao ac = (some [s], [s]) := by
  constructor
  · show (bfsAux g s ao ac (2 * (touched g s).card + 1 + 1)
      {s} [s] [(s, none)] []).getD (none, []) = (some [s], [s])
    simp [bfsAux, buildPath, lookupPar]
  · show (dfsAux g s ao ac ((touched g s).card * (g.edges.length + 2) + 1 + 1)
      ∅ [(s, [s])] []).getD (none, []) = (some [s], [s])
    simp [dfsAux]

/-! ### Claim C8 -/
/-- C8: `dfs` is deterministic — two calls with identical graph state and
identical parameters return identical visited orders and identical paths. -/
theorem claim_C8_dfs_deterministic (g1 g2 : Graph) (s1 s2 t1 t2 : Name)
    (ao1 ao2 ac1 ac2 : Bool) (hg : g1 = g2) (hs : s1 = s2) (ht : t1 = t2)
    (hao : ao1 = ao2) (hac : ac1 = ac2) :
    (dfs g1 s1 t1 ao1 ac1).2 = (dfs g2 s2 t2 ao2 ac2).2 ∧
    (dfs g1 s1 t1 ao1 ac1).1 = (dfs g2 s2 t2 ao2 ac2).1 := by
  subst hg hs ht hao hac
  exact ⟨rfl, rfl⟩

/-- Witness for C8: two textually separate `dfs` calls on Scenario A with
equal arguments agree. -/
theorem claim_C8_dfs_deterministic_witness :
    (dfs scenarioA "X" "Z" false false).2 = (dfs scenarioA "X" "Z" false false).2 ∧
    (dfs scenarioA "X" "Z" false false).1 = (dfs scenarioA "X" "Z" false false).1 :=
  claim_C8_dfs_deterministic scenarioA scenarioA "X" "X" "Z" "Z" false false
    false false rfl rfl rfl rfl rfl

theorem validPath_singleton (g : Graph) (ao ac : Bool) (s : Name) :
    ValidPath g ao ac s s [s] := ⟨rfl, rfl, List.chain'_singleton s⟩

theorem validPath_concat {g : Graph} {ao ac : Bool} {s u v : Name}
    {p : List Name} (hp : ValidPath g ao ac s u p) (h : Adj g ao ac u v) :
    ValidPath g ao ac s v (p ++ [v]) := by
  obtain ⟨h1, h2, h3⟩ := hp
  have hne : p ≠ [] := by rintro rfl; simp at h1
  refine ⟨?_, ?_, ?_⟩
  · rw [List.head?_append_of_ne_nil _ hne]
    exact h1
  · exact List.getLast?_concat p
  · rw [List.chain'_append]
    refine ⟨h3, List.chain'_singleton v, ?_⟩
    intro x hx y hy
    rw [h2] at hx
    rw [Option.mem_def, Option.some_inj] at hx
    simp only [List.head?_cons, Option.mem_def, Option.some_inj] at hy
    rw [← hx, ← hy]
    exact h

theorem validPath_length_pos {g : Graph} {ao ac : Bool} {s t : Name}
    {p : List Name} (hp : ValidPath g ao ac s t p) : 1 ≤ p.length := by
  obtain ⟨h1, -, -⟩ := hp
  cases p with
  | nil => simp at h1
  | cons a l => simp

/-! ### DFS: postconditions of a completed run -/
theorem dfsAux_post {g : Graph} {goal : Name} {ao ac : Bool} {s : Name} :
    ∀ (fuel : Nat) (vis : Finset Name) (stack : List (Name × List Name))
      (vo : List Name) (r : Option (List Name) × List Name),
      (∀ e ∈ stack, ValidPath g ao ac s e.1 e.2) →
      (∀ e ∈ stack, e.1 = s ∨ ∃ u ∈ vo, Adj g ao ac u e.1) →
      VoSound g ao ac s vo →
      dfsAux g goal ao ac fuel vis stack vo = some r →
      VoSound g ao ac s r.2 ∧ (∀ p, r.1 = some p → ValidPath g ao ac s goal p) := by
  intro fuel
  induction fuel with
  | zero => intro vis stack vo r _ _ _ h; cases h
  | succ fuel ih =>
    intro vis stack vo r hvalid hprov hvo h
    cases stack with
    | nil =>
      rw [dfsAux] at h
      rw [Option.some_inj] at h
      subst h
      exact ⟨hvo, by intro p hp; cases hp⟩
    | cons e rest =>
      obtain ⟨cur, path⟩ := e
      rw [dfsAux] at h
      by_cases hc : cur ∈ vis
      · rw [if_pos hc] at h
        exact ih vis rest vo r (fun e he => hvalid e (List.mem_cons_of_mem _ he))
          (fun e he => hprov e (List.mem_cons_of_mem _ he)) hvo h
      · rw [if_neg hc] at h
        by_cases hg : cur = goal
        · rw [if_pos hg] at h
          rw [Option.some_inj] at h
          subst h
          have hvo' : VoSound g ao ac s (vo ++ [cur]) := by
            intro v hv
            rcases List.mem_append.1 hv with hv | hv
            · rcases hvo v hv with h' | ⟨u, hu, ha⟩
              · exact Or.inl h'
              · exact Or.inr ⟨u, List.mem_append_left _ hu, ha⟩
            · rw [List.mem_singleton] at hv
              subst hv
              rcases hprov (v, path) (List.mem_cons_self _ _) with h' | ⟨u, hu, ha⟩
              · exact Or.inl h'
              · exact Or.inr ⟨u, List.mem_append_left _ hu, ha⟩
          refine ⟨hvo', fun p hp => ?_⟩
          rw [Option.some_inj] at hp
          subst hp
          have := hvalid (cur, path) (List.mem_cons_self _ _)
          rw [hg] at this
          exact this
        · rw [if_neg hg] at h
          refine ih _ _ _ _ ?_ ?_ ?_ h
          · intro e he
            rcases List.mem_append.1 he with he | he
            · rw [List.mem_reverse, List.mem_map] at he
              obtain ⟨nb, hnb, rfl⟩ := he
              have hnb' : nb ∈ g.neighbors cur ao ac :=
                mem_sortDesc.1 (List.mem_of_mem_filter hnb)
              exact validPath_concat (hvalid (cur, path) (List.mem_cons_self _ _)) hnb'
            · exact hvalid e (List.mem_cons_of_mem _ he)
          · intro e he
            rcases List.mem_append.1 he with he | he
            · rw [List.mem_reverse, List.mem_map] at he
              obtain ⟨nb, hnb, rfl⟩ := he
              have hnb' : nb ∈ g.neighbors cur ao ac :=
                mem_sortDesc.1 (List.mem_of_mem_filter hnb)
              exact Or.inr ⟨cur, List.mem_append_right _ (List.mem_singleton_self _), hnb'⟩
            · rcases hprov e (List.mem_cons_of_mem _ he) with h' | ⟨u, hu, ha⟩
              · exact Or.inl h'
              · exact Or.inr ⟨u, List.mem_append_left _ hu, ha⟩
          · intro v hv
            rcases List.mem_append.1 hv with hv | hv
            · rcases hvo v hv with h' | ⟨u, hu, ha⟩
              · exact Or.inl h'
              · exact Or.inr ⟨u, List.mem_append_left _ hu, ha⟩
            · rw [List.mem_singleton] at hv
              subst hv
              rcases hprov (v, path) (List.mem_cons_self _ _) with h' | ⟨u, hu, ha⟩
              · exact Or.inl h'
              · exact Or.inr ⟨u, List.mem_append_left _ hu, ha⟩

theorem dfsAux_some {g : Graph} {goal : Name} {ao ac : Bool} {s : Name} :
    ∀ (fuel : Nat) (vis : Finset Name) (stack : List (Name × List Name))
      (vo : List Name),
      (∀ e ∈ stack, e.1 ∈ touched g s) →
      dfsMeasure g s vis stack < fuel →
      ∃ r, dfsAux g goal ao ac fuel vis stack vo = some r := by
  intro fuel
  induction fuel with
  | zero => intro vis stack vo _ h; exact absurd h (Nat.not_lt_zero _)
  | succ fuel ih =>
    intro vis stack vo hst hm
    cases stack with
    | nil => exact ⟨(none, vo), by rw [dfsAux]⟩
    | cons e rest =>
      obtain ⟨cur, path⟩ := e
      rw [dfsAux]
      by_cases hc : cur ∈ vis
      · rw [if_pos hc]
        refine ih vis rest vo (fun e he => hst e (List.mem_cons_of_mem _ he)) ?_
        unfold dfsMeasure at hm ⊢
        simp only [List.length_cons] at hm
        omega
      · rw [if_neg hc]
        by_cases hg : cur = goal
        · rw [if_pos hg]
          exact ⟨_, rfl⟩
        · rw [if_neg hg]
          refine ih (insert cur vis) _ (vo ++ [cur]) ?_ ?_
          · intro e he
            rcases List.mem_append.1 he with he | he
            · rw [List.mem_reverse, List.mem_map] at he
              obtain ⟨nb, hnb, rfl⟩ := he
              exact neighbors_subset_touched
                (mem_sortDesc.1 (List.mem_of_mem_filter hnb))
            · exact hst e (List.mem_cons_of_mem _ he)
          · have hcur : cur ∈ touched g s \ vis :=
              Finset.mem_sdiff.2 ⟨hst (cur, path) (List.mem_cons_self _ _), hc⟩
            have hcard : (touched g s \ insert cur vis).card + 1 =
                (touched g s \ vis).card := by
              rw [Finset.sdiff_insert, Finset.card_erase_of_mem hcur]
              have : 0 < (touched g s \ vis).card := Finset.card_pos.2 ⟨cur, hcur⟩
              omega
            have hplen : ((sortDesc (g.neighbors cur ao ac)).filter
                (fun nb => decide (nb ∉ insert cur vis))).length ≤ g.edges.length := by
              calc ((sortDesc (g.neighbors cur ao ac)).filter _).length
                  ≤ (sortDesc (g.neighbors cur ao ac)).length :=
                    List.length_filter_le _ _
                _ = (g.neighbors cur ao ac).length := length_sortDesc _
                _ ≤ g.edges.length := length_neighbors_le _ _ _ _
            unfold dfsMeasure at hm ⊢
            rw [List.length_append, List.length_reverse, List.length_map]
            simp only [List.length_cons] at hm
            have hsplit : (touched g s \ vis).card * (g.edges.length + 2)
                = (touched g s \ insert cur vis).card * (g.edges.length + 2)
                  + (g.edges.length + 2) := by
              conv_lhs => rw [← hcard]
              ring
            rw [hsplit] at hm
            generalize (touched g s \ insert cur vis).card *
              (g.edges.length + 2) = P at hm ⊢
            omega

/-- The fuel passed by the `dfs` wrapper completes the run. -/
theorem dfs_runs (g : Graph) (s goal : Name) (ao ac : Bool) :
    ∃ r, dfsAux g goal ao ac (dfsFuel g s) ∅ [(s, [s])] [] = some r ∧
      dfs g s goal ao ac = r := by
  obtain ⟨r, hr⟩ := @dfsAux_some g goal ao ac s
    (dfsFuel g s) ∅ [(s, [s])] []
    (by
      intro e he
      rw [List.mem_singleton] at he
      subst he
      exact start_mem_touched g s)
    (by
      unfold dfsMeasure dfsFuel
      rw [Finset.sdiff_empty, List.length_singleton]
      exact Nat.lt_succ_self _)
  exact ⟨r, hr, by unfold dfs; rw [hr]; rfl⟩

/-- Every completed `dfs` call returns a sound visited order, and—when it
returns a path—a valid filtered path from start to goal. -/
theorem dfs_result (g : Graph) (s goal : Name) (ao ac : Bool) :
    VoSound g ao ac s (dfs g s goal ao ac).2 ∧
      (∀ p, (dfs g s goal ao ac).1 = some p → ValidPath g ao ac s goal p) := by
  obtain ⟨r, hr, hd⟩ := dfs_runs g s goal ao ac
  rw [hd]
  refine dfsAux_post (dfsFuel g s) ∅ [(s, [s])] [] r ?_ ?_ ?_ hr
  · intro e he
    rw [List.mem_singleton] at he
    subst he
    exact validPath_singleton g ao ac s
  · intro e he
    rw [List.mem_singleton] at he
    subst he
    exact Or.inl rfl
  · intro v hv
    cases hv

theorem liveStack_nil (vis : Finset Name) : liveStack vis [] = [] := rfl

theorem liveStack_cons_of_mem {vis : Finset Name} {e : Name × List Name}
    {st : List (Name × List Name)} (h : e.1 ∈ vis) :
    liveStack vis (e :: st) = liveStack vis st := by
  simp [liveStack, h]

theorem liveStack_cons_of_not_mem {vis : Finset Name} {e : Name × List Name}
    {st : List (Name × List Name)} (h : e.1 ∉ vis) :
    liveStack vis (e :: st) = e :: liveStack vis st := by
  simp [liveStack, h]

theorem liveStack_append (vis : Finset Name) (l l' : List (Name × List Name)) :
    liveStack vis (l ++ l') = liveStack vis l ++ liveStack vis l' :=
  List.filter_append l l'

theorem liveStack_reverse (vis : Finset Name) (l : List (Name × List Name)) :
    liveStack vis l.reverse = (liveStack vis l).reverse :=
  List.filter_reverse _ l

theorem liveStack_eq_nil_iff {vis : Finset Name} {st : List (Name × List Name)} :
    liveStack vis st = [] ↔ ∀ e ∈ st, e.1 ∈ vis := by
  rw [liveStack, List.filter_eq_nil_iff]
  simp

theorem liveStack_absorb {vis vis' : Finset Name} (hsub : vis ⊆ vis')
    (st : List (Name × List Name)) :
    liveStack vis' (liveStack vis st) = liveStack vis' st := by
  induction st with
  | nil => rfl
  | cons e st ih =>
    by_cases h : e.1 ∈ vis
    · rw [liveStack_cons_of_mem h, ih, liveStack_cons_of_mem (hsub h)]
    · rw [liveStack_cons_of_not_mem h]
      by_cases h' : e.1 ∈ vis'
      · rw [liveStack_cons_of_mem h', ih, liveStack_cons_of_mem h']
      · rw [liveStack_cons_of_not_mem h', ih, liveStack_cons_of_not_mem h']

theorem liveStack_eq_cons {vis : Finset Name} :
    ∀ {st e l}, liveStack vis st = e :: l →
      ∃ pre post, st = pre ++ e :: post ∧ (∀ x ∈ pre, x.1 ∈ vis) ∧
        e.1 ∉ vis ∧ liveStack vis post = l := by
  intro st
  induction st with
  | nil => intro e l h; cases h
  | cons x xs ih =>
    intro e l h
    by_cases hx : x.1 ∈ vis
    · rw [liveStack_cons_of_mem hx] at h
      obtain ⟨pre, post, h1, h2, h3, h4⟩ := ih h
      refine ⟨x :: pre, post, by rw [h1]; rfl, ?_, h3, h4⟩
      intro y hy
      rcases List.mem_cons.1 hy with rfl | hy
      · exact hx
      · exact h2 y hy
    · rw [liveStack_cons_of_not_mem hx] at h
      obtain ⟨rfl, h2⟩ : x = e ∧ liveStack vis xs = l :=
        ⟨(List.cons.injEq _ _ _ _ ▸ h).1, (List.cons.injEq _ _ _ _ ▸ h).2⟩
      exact ⟨[], xs, rfl, by simp, hx, h2⟩

/-- Unfolding lemmas for `dfsSpecAux`. -/
theorem dfsSpecAux_nil (g : Graph) (goal : Name) (ao ac : Bool) (f : Nat)
    (vis : Finset Name) (vo : List Name) :
    dfsSpecAux g goal ao ac (f + 1) vis [] vo = some (none, vo) := by
  rw [dfsSpecAux]

theorem dfsSpecAux_skip (g : Graph) (goal : Name) (ao ac : Bool) (f : Nat)
    {vis : Finset Name} {cur : Name} (path : List Name)
    (st : List (Name × List Name)) (vo : List Name) (h : cur ∈ vis) :
    dfsSpecAux g goal ao ac (f + 1) vis ((cur, path) :: st) vo =
      dfsSpecAux g goal ao ac f vis st vo := by
  rw [dfsSpecAux, if_pos h]

theorem dfsSpecAux_found (g : Graph) (goal : Name) (ao ac : Bool) (f : Nat)
    {vis : Finset Name} {cur : Name} (path : List Name)
    (st : List (Name × List Name)) (vo : List Name) (h : cur ∉ vis)
    (hg : cur = goal) :
    dfsSpecAux g goal ao ac (f + 1) vis ((cur, path) :: st) vo =
      some (some path, vo ++ [cur]) := by
  rw [dfsSpecAux, if_neg h, if_pos hg]

theorem dfsSpecAux_step (g : Graph) (goal : Name) (ao ac : Bool) (f : Nat)
    {vis : Finset Name} {cur : Name} (path : List Name)
    (st : List (Name × List Name)) (vo : List Name) (h : cur ∉ vis)
    (hg : cur ≠ goal) :
    dfsSpecAux g goal ao ac (f + 1) vis ((cur, path) :: st) vo =
      dfsSpecAux g goal ao ac f (insert cur vis)
        (((sortDesc (g.neighbors cur ao ac)).map
            (fun nb => (nb, path ++ [nb]))).reverse ++ st) (vo ++ [cur]) := by
  rw [dfsSpecAux, if_neg h, if_neg hg]

/-- Fuel monotonicity for the code's DFS loop. -/
theorem dfsAux_mono {g : Graph} {goal : Name} {ao ac : Bool} :
    ∀ (fuel : Nat) {vis stack vo r},
      dfsAux g goal ao ac fuel vis stack vo = some r →
      dfsAux g goal ao ac (fuel + 1) vis stack vo = some r := by
  intro fuel
  induction fuel with
  | zero => intro vis stack vo r h; cases h
  | succ fuel ih =>
    intro vis stack vo r h
    cases stack with
    | nil =>
      rw [dfsAux] at h
      rw [dfsAux]
      exact h
    | cons e rest =>
      obtain ⟨cur, path⟩ := e
      rw [dfsAux] at h
      rw [dfsAux]
      by_cases hc : cur ∈ vis
      · rw [if_pos hc] at h ⊢
        exact ih h
      · rw [if_neg hc] at h ⊢
        by_cases hg : cur = goal
        · rw [if_pos hg] at h ⊢
          exact h
        · rw [if_neg hg] at h ⊢
          exact ih h

theorem dfsAux_mono_le {g : Graph} {goal : Name} {ao ac : Bool} {f f' : Nat}
    (hle : f ≤ f') {vis stack vo r}
    (h : dfsAux g goal ao ac f vis stack vo = some r) :
    dfsAux g goal ao ac f' vis stack vo = some r := by
  induction hle with
  | refl => exact h
  | step _ ih => exact dfsAux_mono _ ih

/-- Fuel monotonicity for the reference DFS loop. -/
theorem dfsSpecAux_mono {g : Graph} {goal : Name} {ao ac : Bool} :
    ∀ (fuel : Nat) {vis stack vo r},
      dfsSpecAux g goal ao ac fuel vis stack vo = some r →
      dfsSpecAux g goal ao ac (fuel + 1) vis stack vo = some r := by
  intro fuel
  induction fuel with
  | zero => intro vis stack vo r h; cases h
  | succ fuel ih =>
    intro vis stack vo r h
    cases stack with
    | nil =>
      rw [dfsSpecAux] at h
      rw [dfsSpecAux]
      exact h
    | cons e rest =>
      obtain ⟨cur, path⟩ := e
      rw [dfsSpecAux] at h
      rw [dfsSpecAux]
      by_cases hc : cur ∈ vis
      · rw [if_pos hc] at h ⊢
        exact ih h
      · rw [if_neg hc] at h ⊢
        by_cases hg : cur = goal
        · rw [if_pos hg] at h ⊢
          exact h
        · rw [if_neg hg] at h ⊢
          exact ih h

theorem dfsSpecAux_mono_le {g : Graph} {goal : Name} {ao ac : Bool} {f f' : Nat}
    (hle : f ≤ f') {vis stack vo r}
    (h : dfsSpecAux g goal ao ac f vis stack vo = some r) :
    dfsSpecAux g goal ao ac f' vis stack vo = some r := by
  induction hle with
  | refl => exact h
  | step _ ih => exact dfsSpecAux_mono _ ih

/-- Entries whose node is already visited are skipped by the reference DFS. -/
theorem dfsSpecAux_junk {g : Graph} {goal : Name} {ao ac : Bool} :
    ∀ (pre : List (Name × List Name)) {fuel vis stack vo r},
      (∀ e ∈ pre, e.1 ∈ vis) →
      dfsSpecAux g goal ao ac fuel vis stack vo = some r →
      dfsSpecAux g goal ao ac (fuel + pre.length) vis (pre ++ stack) vo = some r := by
  intro pre
  induction pre with
  | nil => intro fuel vis stack vo r _ h; simpa using h
  | cons e pre ih =>
    intro fuel vis stack vo r hj h
    have he : e.1 ∈ vis := hj e (List.mem_cons_self _ _)
    obtain ⟨n, p⟩ := e
    simp only [List.length_cons, List.cons_append]
    rw [show fuel + (pre.length + 1) = (fuel + pre.length) + 1 from by omega]
    rw [dfsSpecAux_skip g goal ao ac _ p _ vo he]
    exact ih (fun x hx => hj x (List.mem_cons_of_mem _ hx)) h

theorem dfsSpecAux_some {g : Graph} {goal : Name} {ao ac : Bool} {s : Name} :
    ∀ (fuel : Nat) (vis : Finset Name) (stack : List (Name × List Name))
      (vo : List Name),
      (∀ e ∈ stack, e.1 ∈ touched g s) →
      dfsMeasure g s vis stack < fuel →
      ∃ r, dfsSpecAux g goal ao ac fuel vis stack vo = some r := by
  intro fuel
  induction fuel with
  | zero => intro vis stack vo _ h; exact absurd h (Nat.not_lt_zero _)
  | succ fuel ih =>
    intro vis stack vo hst hm
    cases stack with
    | nil => exact ⟨(none, vo), by rw [dfsSpecAux]⟩
    | cons e rest =>
      obtain ⟨cur, path⟩ := e
      rw [dfsSpecAux]
      by_cases hc : cur ∈ vis
      · rw [if_pos hc]
        refine ih vis rest vo (fun e he => hst e (List.mem_cons_of_mem _ he)) ?_
        unfold dfsMeasure at hm ⊢
        simp only [List.length_cons] at hm
        omega
      · rw [if_neg hc]
        by_cases hg : cur = goal
        · rw [if_pos hg]
          exact ⟨_, rfl⟩
        · rw [if_neg hg]
          refine ih (insert cur vis) _ (vo ++ [cur]) ?_ ?_
          · intro e he
            rcases List.mem_append.1 he with he | he
            · rw [List.mem_reverse, List.mem_map] at he
              obtain ⟨nb, hnb, rfl⟩ := he
              exact neighbors_subset_touched (mem_sortDesc.1 hnb)
            · exact hst e (List.mem_cons_of_mem _ he)
          · have hcur : cur ∈ touched g s \ vis :=
              Finset.mem_sdiff.2 ⟨hst (cur, path) (List.mem_cons_self _ _), hc⟩
            have hcard : (touched g s \ insert cur vis).card + 1 =
                (touched g s \ vis).card := by
              rw [Finset.sdiff_insert, Finset.card_erase_of_mem hcur]
              have : 0 < (touched g s \ vis).card := Finset.card_pos.2 ⟨cur, hcur⟩
              omega
            have hplen : (sortDesc (g.neighbors cur ao ac)).length ≤
                g.edges.length := by
              rw [length_sortDesc]
              exact length_neighbors_le _ _ _ _
            unfold dfsMeasure at hm ⊢
            rw [List.length_append, List.length_reverse, List.length_map]
            simp only [List.length_cons] at hm
            have hsplit : (touched g s \ vis).card * (g.edges.length + 2)
                = (touched g s \ insert cur vis).card * (g.edges.length + 2)
                  + (g.edges.length + 2) := by
              conv_lhs => rw [← hcard]
              ring
            rw [hsplit] at hm
            generalize (touched g s \ insert cur vis).card *
              (g.edges.length + 2) = P at hm ⊢
            omega

/-- The simulation: any completed run of the code's DFS loop is reproduced,
with the same result, by the reference loop from any stack with the same
live entries. -/
theorem dfs_sim {g : Graph} {goal : Name} {ao ac : Bool} :
    ∀ (fA : Nat) {vis stA stB vo r},
      liveStack vis stA = liveStack vis stB →
      dfsAux g goal ao ac fA vis stA vo = some r →
      ∃ fB, dfsSpecAux g goal ao ac fB vis stB vo = some r := by
  intro fA
  induction fA with
  | zero => intro vis stA stB vo r _ h; cases h
  | succ fA ih =>
    intro vis stA stB vo r hls h
    cases stA with
    | nil =>
      rw [dfsAux] at h
      rw [Option.some_inj] at h
      subst h
      have hB : ∀ e ∈ stB, e.1 ∈ vis := by
        refine liveStack_eq_nil_iff.1 ?_
        rw [← hls, liveStack_nil]
      refine ⟨1 + stB.length, ?_⟩
      have h0 := dfsSpecAux_nil g goal ao ac 0 vis vo
      have := dfsSpecAux_junk stB hB h0
      rw [List.append_nil] at this
      exact this
    | cons e restA =>
      obtain ⟨cur, path⟩ := e
      rw [dfsAux] at h
      by_cases hc : cur ∈ vis
      · rw [if_pos hc] at h
        rw [liveStack_cons_of_mem hc] at hls
        exact ih hls h
      · rw [if_neg hc] at h
        rw [liveStack_cons_of_not_mem hc] at hls
        obtain ⟨pre, postB, hB, hpre, hcurB, hpost⟩ := liveStack_eq_cons hls.symm
        subst hB
        by_cases hg : cur = goal
        · rw [if_pos hg] at h
          refine ⟨(0 + 1) + pre.length, dfsSpecAux_junk pre hpre ?_⟩
          rw [dfsSpecAux_found g goal ao ac 0 path postB vo hc hg]
          exact h
        · rw [if_neg hg] at h
          have hnew : liveStack (insert cur vis)
              ((((sortDesc (g.neighbors cur ao ac)).filter
                  (fun nb => decide (nb ∉ insert cur vis))).map
                  (fun nb => (nb, path ++ [nb]))).reverse ++ restA) =
              liveStack (insert cur vis)
                (((sortDesc (g.neighbors cur ao ac)).map
                  (fun nb => (nb, path ++ [nb]))).reverse ++ postB) := by
            rw [liveStack_append, liveStack_append, liveStack_reverse,
              liveStack_reverse]
            have h1 : liveStack (insert cur vis)
                (((sortDesc (g.neighbors cur ao ac)).filter
                  (fun nb => decide (nb ∉ insert cur vis))).map
                  (fun nb => (nb, path ++ [nb]))) =
                ((sortDesc (g.neighbors cur ao ac)).filter
                  (fun nb => decide (nb ∉ insert cur vis))).map
                  (fun nb => (nb, path ++ [nb])) := by
              rw [liveStack, List.filter_eq_self]
              intro e he
              rw [List.mem_map] at he
              obtain ⟨nb, hnb, rfl⟩ := he
              have := List.of_mem_filter hnb
              simpa using this
            have h2 : liveStack (insert cur vis)
                ((sortDesc (g.neighbors cur ao ac)).map
                  (fun nb => (nb, path ++ [nb]))) =
                ((sortDesc (g.neighbors cur ao ac)).filter
                  (fun nb => decide (nb ∉ insert cur vis))).map
                  (fun nb => (nb, path ++ [nb])) := by
              rw [liveStack, List.filter_map]
              rfl
            have h3 : liveStack (insert cur vis) restA =
                liveStack (insert cur vis) postB := by
              rw [← liveStack_absorb (Finset.subset_insert cur vis) restA,
                ← liveStack_absorb (Finset.subset_insert cur vis) postB, hpost]
            rw [h1, h2, h3]
          obtain ⟨fB, hfB⟩ := ih hnew h
          refine ⟨(fB + 1) + pre.length, dfsSpecAux_junk pre hpre ?_⟩
          rw [dfsSpecAux_step g goal ao ac fB path postB vo hc hg]
          exact hfB

/-! ### Claim C5 -/
/-- C5: the code's DFS (which filters visited neighbors at push time in
addition to checking visited at pop time) returns the same (path,
visitedOrder) as the reference algorithm that pushes every
descending-sorted neighbor and checks visited membership only at pop time
— on every graph and every choice of parameters. -/
theorem claim_C5_dfs_refines_spec (g : Graph) (s goal : Name) (ao ac : Bool) :
    dfs g s goal ao ac = dfsSpec g s goal ao ac := by
  obtain ⟨r, hr, hd⟩ := dfs_runs g s goal ao ac
  obtain ⟨fB, hfB⟩ := dfs_sim (dfsFuel g s) rfl hr
  obtain ⟨r', hr'⟩ := @dfsSpecAux_some g goal ao ac s
    (dfsFuel g s) ∅ [(s, [s])] []
    (by
      intro e he
      rw [List.mem_singleton] at he
      subst he
      exact start_mem_touched g s)
    (by
      unfold dfsMeasure dfsFuel
      rw [Finset.sdiff_empty, List.length_singleton]
      exact Nat.lt_succ_self _)
  have h1 : dfsSpecAux g goal ao ac (max fB (dfsFuel g s)) ∅ [(s, [s])] [] =
      some r := dfsSpecAux_mono_le (le_max_left _ _) hfB
  have h2 : dfsSpecAux g goal ao ac (max fB (dfsFuel g s)) ∅ [(s, [s])] [] =
      some r' := dfsSpecAux_mono_le (le_max_right _ _) hr'
  have hrr : r = r' := by
    rw [h1] at h2
    exact Option.some_inj.1 h2
  rw [hd, hrr]
  unfold dfsSpec
  rw [hr']
  rfl

/-! ### BFS: the level invariant of the loop state -/
theorem lookupPar_cons_self (n : Name) (o : Option Name)
    (par : List (Name × Option Name)) :
    lookupPar ((n, o) :: par) n = some o := by
  simp [lookupPar, List.find?]

theorem lookupPar_cons_ne {v n : Name} (o : Option Name)
    (par : List (Name × Option Name)) (h : v ≠ n) :
    lookupPar ((n, o) :: par) v = lookupPar par v := by
  have : (n == v) = false := by
    rw [beq_eq_false_iff_ne]
    exact fun hEq => h hEq.symm
  simp [lookupPar, List.find?, this]

/-- Reconstruction along the parent chain: for a visited `v`, `buildPath`
with fuel above `D v` returns a valid path of exactly `D v + 1` nodes. -/
theorem buildPath_of_inv {g : Graph} {ao ac : Bool} {s : Name}
    {vis : Finset Name} {q : List Name} {par : List (Name × Option Name)}
    {vo : List Name} {D : Name → Nat}
    (inv : BfsInv g ao ac s vis q par vo D) :
    ∀ (n : Nat) (v : Name), v ∈ vis → D v < n →
      ∃ p, buildPath n par v = some p ∧ p.length = D v + 1 ∧
        p.head? = some s ∧ p.getLast? = some v ∧
        List.Chain' (Adj g ao ac) p ∧ (∀ x ∈ p, x ∈ vis) ∧
        (∀ x ∈ p, D x ≤ D v) ∧ List.Pairwise (fun a b => D a < D b) p := by
  intro n
  induction n with
  | zero => intro v _ h; exact absurd h (Nat.not_lt_zero _)
  | succ n ih =>
    intro v hv hD
    by_cases hs : v = s
    · subst hs
      refine ⟨[v], ?_, by simp [inv.start_D], rfl, rfl, List.chain'_singleton v,
        by simpa using hv, by simp, List.pairwise_singleton _ v⟩
      rw [buildPath, inv.start_par]
    · obtain ⟨u, hpar, hu, hadj, hDv⟩ := inv.par_step v hv hs
      have hDu : D u < n := by omega
      obtain ⟨p, hbp, hlen, hhd, hlast, hch, hvis, hle, hpw⟩ := ih u hu hDu
      have hne : p ≠ [] := by rintro rfl; cases hhd
      refine ⟨p ++ [v], ?_, ?_, ?_, List.getLast?_concat p, ?_, ?_, ?_, ?_⟩
      · rw [buildPath, hpar]
        show Option.map (fun p => p ++ [v]) (buildPath n par u) = some (p ++ [v])
        rw [hbp]
        rfl
      · rw [List.length_append, hlen, List.length_singleton]
        omega
      · rw [List.head?_append_of_ne_nil _ hne]
        exact hhd
      · rw [List.chain'_append]
        refine ⟨hch, List.chain'_singleton v, ?_⟩
        intro x hx y hy
        rw [hlast, Option.mem_def, Option.some_inj] at hx
        simp only [List.head?_cons, Option.mem_def, Option.some_inj] at hy
        rw [← hx, ← hy]
        exact hadj
      · intro x hx
        rcases List.mem_append.1 hx with hx | hx
        · exact hvis x hx
        · rw [List.mem_singleton] at hx
          subst hx
          exact hv
      · intro x hx
        rcases List.mem_append.1 hx with hx | hx
        · have := hle x hx
          omega
        · rw [List.mem_singleton] at hx
          subst hx
          exact le_refl _
      · rw [List.pairwise_append]
        refine ⟨hpw, List.pairwise_singleton _ v, ?_⟩
        intro x hx y hy
        rw [List.mem_singleton] at hy
        subst hy
        have := hle x hx
        omega

/-- Recorded levels stay below the number of visited nodes. -/
theorem D_lt_card {g : Graph} {ao ac : Bool} {s : Name} {vis : Finset Name}
    {q : List Name} {par : List (Name × Option Name)} {vo : List Name}
    {D : Name → Nat} (inv : BfsInv g ao ac s vis q par vo D) :
    ∀ v ∈ vis, D v < vis.card := by
  intro v hv
  obtain ⟨p, -, hlen, -, -, -, hvis, -, hpw⟩ :=
    buildPath_of_inv inv (D v + 1) v hv (Nat.lt_succ_self _)
  have hnd : p.Nodup := by
    refine hpw.imp ?_
    intro a b hab
    intro hEq
    rw [hEq] at hab
    exact Nat.lt_irrefl _ hab
  have hsub : p.toFinset ⊆ vis := by
    intro x hx
    exact hvis x (List.mem_toFinset.1 hx)
  have hcard : p.length ≤ vis.card := by
    rw [← List.toFinset_card_of_nodup hnd]
    exact Finset.card_le_card hsub
  omega

/-- The minimality argument: walking any valid path from `s`, either the
path already costs at least `D cur + 1` nodes, or its endpoint is a visited,
already-dequeued node whose level is below the path length. -/
theorem bfs_min_walk {g : Graph} {ao ac : Bool} {s : Name} {vis : Finset Name}
    {cur : Name} {rest : List Name} {par : List (Name × Option Name)}
    {vo : List Name} {D : Name → Nat}
    (inv : BfsInv g ao ac s vis (cur :: rest) par vo D) :
    ∀ (p : List Name), List.Chain' (Adj g ao ac) p → p.head? = some s →
      ∀ v, p.getLast? = some v →
        D cur + 1 ≤ p.length ∨
          (v ∈ vis ∧ D v + 1 ≤ p.length ∧ v ∉ cur :: rest) := by
  intro p
  induction p using List.reverseRecOn with
  | nil =>
    intro _ _ v hlast
    cases hlast
  | append_singleton l a ihl =>
    intro hch hhd v hlast
    rw [List.getLast?_concat] at hlast
    rw [Option.some_inj] at hlast
    subst hlast
    have hDcur_le : ∀ x, x ∈ cur :: rest → D cur ≤ D x := by
      intro x hx
      rcases List.mem_cons.1 hx with rfl | hx
      · exact le_refl _
      · exact (List.pairwise_cons.1 inv.q_sorted).1 x hx
    cases l with
    | nil =>
      simp only [List.nil_append, List.head?_cons, Option.some_inj] at hhd
      by_cases hq : a ∈ cur :: rest
      · left
        have h1 : D cur ≤ D a := hDcur_le a hq
        have h2 : D a = 0 := by rw [hhd]; exact inv.start_D
        simp only [List.nil_append, List.length_singleton]
        omega
      · right
        refine ⟨by rw [hhd]; exact inv.start_vis, ?_, hq⟩
        have h2 : D a = 0 := by rw [hhd]; exact inv.start_D
        simp [h2]
    | cons b m =>
      have hlne : b :: m ≠ [] := List.cons_ne_nil b m
      have hch' : List.Chain' (Adj g ao ac) (b :: m) ∧
          ∀ x ∈ (b :: m).getLast?, Adj g ao ac x a := by
        rw [List.chain'_append] at hch
        refine ⟨hch.1, ?_⟩
        intro x hx
        exact hch.2.2 x hx a (by simp)
      have hhd' : (b :: m).head? = some s := by
        rw [List.head?_append_of_ne_nil _ hlne] at hhd
        exact hhd
      obtain ⟨u, hu⟩ : ∃ u, (b :: m).getLast? = some u :=
        ⟨(b :: m).getLast hlne, List.getLast?_eq_getLast _ hlne⟩
      rcases ihl hch'.1 hhd' u hu with hleft | ⟨huvis, hulen, hunq⟩
      · left
        rw [List.length_append]
        omega
      · have hadj : Adj g ao ac u a := hch'.2 u (by rw [hu]; rfl)
        obtain ⟨hvvis, hvD⟩ := inv.closed_expanded u huvis hunq a hadj
        have hlen' : D a + 1 ≤ (b :: m ++ [a]).length := by
          rw [List.length_append]
          simp only [List.length_singleton]
          omega
        by_cases hq : a ∈ cur :: rest
        · left
          have := hDcur_le a hq
          calc D cur + 1 ≤ D a + 1 := by omega
            _ ≤ _ := hlen'
        · right
          exact ⟨hvvis, hlen', hq⟩

/-- Characterization of the BFS neighbor-enqueue fold: it visits and
enqueues exactly the not-yet-visited neighbors (first occurrence each), in
order, recording `cur` as their parent. -/
theorem bfsEnq_fold (cur : Name) :
    ∀ (nbrs : List Name) (vis : Finset Name) (q : List Name)
      (par : List (Name × Option Name)),
      ∃ new : List Name,
        (nbrs.foldl (bfsEnq cur) (vis, q, par)).1 = vis ∪ new.toFinset ∧
        (nbrs.foldl (bfsEnq cur) (vis, q, par)).2.1 = q ++ new ∧
        new.Nodup ∧ (∀ x ∈ new, x ∉ vis ∧ x ∈ nbrs) ∧
        (∀ x ∈ nbrs, x ∈ (nbrs.foldl (bfsEnq cur) (vis, q, par)).1) ∧
        (∀ v, v ∉ new →
          lookupPar (nbrs.foldl (bfsEnq cur) (vis, q, par)).2.2 v =
            lookupPar par v) ∧
        (∀ v ∈ new,
          lookupPar (nbrs.foldl (bfsEnq cur) (vis, q, par)).2.2 v =
            some (some cur)) := by
  intro nbrs
  induction nbrs with
  | nil =>
    intro vis q par
    exact ⟨[], by simp, by simp, List.nodup_nil, by simp, by simp,
      fun v _ => rfl, by simp⟩
  | cons nb tl ih =>
    intro vis q par
    rw [List.foldl_cons]
    by_cases hnb : nb ∈ vis
    · have hstep : bfsEnq cur (vis, q, par) nb = (vis, q, par) := by
        rw [bfsEnq, if_pos hnb]
      rw [hstep]
      obtain ⟨new, h1, h2, h3, h4, h5, h6, h7⟩ := ih vis q par
      refine ⟨new, h1, h2, h3, ?_, ?_, h6, h7⟩
      · intro x hx
        exact ⟨(h4 x hx).1, List.mem_cons_of_mem _ (h4 x hx).2⟩
      · intro x hx
        rcases List.mem_cons.1 hx with rfl | hx
        · rw [h1]
          exact Finset.mem_union_left _ hnb
        · exact h5 x hx
    · have hstep : bfsEnq cur (vis, q, par) nb =
          (insert nb vis, q ++ [nb], (nb, some cur) :: par) := by
        rw [bfsEnq, if_neg hnb]
      rw [hstep]
      obtain ⟨new, h1, h2, h3, h4, h5, h6, h7⟩ :=
        ih (insert nb vis) (q ++ [nb]) ((nb, some cur) :: par)
      have hnbnew : nb ∉ new := fun hc =>
        (h4 nb hc).1 (Finset.mem_insert_self _ _)
      refine ⟨nb :: new, ?_, ?_, ?_, ?_, ?_, ?_, ?_⟩
      · rw [h1]
        ext x
        simp only [Finset.mem_union, Finset.mem_insert, List.toFinset_cons,
          List.mem_toFinset]
        tauto
      · rw [h2, List.append_assoc, List.singleton_append]
      · exact List.nodup_cons.2 ⟨hnbnew, h3⟩
      · intro x hx
        rcases List.mem_cons.1 hx with rfl | hx
        · exact ⟨hnb, List.mem_cons_self _ _⟩
        · obtain ⟨hx1, hx2⟩ := h4 x hx
          refine ⟨fun hc => hx1 (Finset.mem_insert_of_mem hc),
            List.mem_cons_of_mem _ hx2⟩
      · intro x hx
        rcases List.mem_cons.1 hx with rfl | hx
        · rw [h1]
          exact Finset.mem_union_left _ (Finset.mem_insert_self _ _)
        · exact h5 x hx
      · intro v hv
        have hv1 : v ∉ new := fun hc => hv (List.mem_cons_of_mem _ hc)
        have hv2 : v ≠ nb := fun hc => hv (hc ▸ List.mem_cons_self _ _)
        rw [h6 v hv1, lookupPar_cons_ne _ _ hv2]
      · intro v hv
        rcases List.mem_cons.1 hv with rfl | hv
        · rw [h6 v hnbnew, lookupPar_cons_self]
        · exact h7 v hv

/-- Expanding the head of the queue preserves the BFS invariant, with the
new nodes placed at level `D cur + 1`; the measure `2·|unvisited| + |queue|`
strictly decreases. -/
theorem bfsInv_expand {g : Graph} {ao ac : Bool} {s : Name} {vis : Finset Name}
    {cur : Name} {rest : List Name} {par : List (Name × Option Name)}
    {vo : List Name} {D : Name → Nat}
    (inv : BfsInv g ao ac s vis (cur :: rest) par vo D) :
    ∃ D' : Name → Nat,
      BfsInv g ao ac s
        ((g.neighbors cur ao ac).foldl (bfsEnq cur) (vis, rest, par)).1
        ((g.neighbors cur ao ac).foldl (bfsEnq cur) (vis, rest, par)).2.1
        ((g.neighbors cur ao ac).foldl (bfsEnq cur) (vis, rest, par)).2.2
        (vo ++ [cur]) D' ∧
      2 * (touched g s \
          ((g.neighbors cur ao ac).foldl (bfsEnq cur) (vis, rest, par)).1).card +
        ((g.neighbors cur ao ac).foldl (bfsEnq cur) (vis, rest, par)).2.1.length +
          1 ≤ 2 * (touched g s \ vis).card + (cur :: rest).length := by
  obtain ⟨new, h1, h2, h3, h4, h5, h6, h7⟩ :=
    bfsEnq_fold cur (g.neighbors cur ao ac) vis rest par
  have hcurvis : cur ∈ vis := inv.q_vis cur (List.mem_cons_self _ _)
  have hcurrest : cur ∉ rest := (List.nodup_cons.1 inv.q_nodup).1
  have hrestnodup : rest.Nodup := (List.nodup_cons.1 inv.q_nodup).2
  have hrestvis : ∀ x ∈ rest, x ∈ vis :=
    fun x hx => inv.q_vis x (List.mem_cons_of_mem _ hx)
  have hsorted := List.pairwise_cons.1 inv.q_sorted
  have hnewvis : ∀ x ∈ new, x ∉ vis := fun x hx => (h4 x hx).1
  have hnewnb : ∀ x ∈ new, Adj g ao ac cur x := fun x hx => (h4 x hx).2
  have hnewnotin : ∀ v ∈ vis, v ∉ new := fun v hv hc => hnewvis _ hc hv
  refine ⟨fun v => if v ∈ vis then D v else D cur + 1, ?_, ?_⟩
  · have hDold : ∀ v ∈ vis,
        (if v ∈ vis then D v else D cur + 1) = D v :=
      fun _ hv => if_pos hv
    have hDnew : ∀ v ∈ new,
        (if v ∈ vis then D v else D cur + 1) = D cur + 1 :=
      fun v hv => if_neg (hnewvis v hv)
    have hDrest : ∀ v ∈ rest,
        (if v ∈ vis then D v else D cur + 1) = D v :=
      fun v hv => hDold v (hrestvis v hv)
    have hrest_le : ∀ x ∈ rest, D cur ≤ D x := hsorted.1
    have htwo : ∀ a ∈ cur :: rest, ∀ b ∈ cur :: rest, D b ≤ D a + 1 :=
      inv.q_twolevel
    have hdeq : ∀ u ∈ vis, u ∉ cur :: rest → ∀ x ∈ cur :: rest, D u ≤ D x :=
      inv.dequeued_le
    refine ⟨?_, ?_, ?_, ?_, ?_, ?_, ?_, ?_, ?_, ?_, ?_, ?_, ?_⟩
    · rw [h1]
      exact Finset.mem_union_left _ inv.start_vis
    · rw [h6 s (hnewnotin s inv.start_vis)]
      exact inv.start_par
    · show (if s ∈ vis then D s else D cur + 1) = 0
      rw [if_pos inv.start_vis]
      exact inv.start_D
    · intro v hv hvs
      rw [h1, Finset.mem_union, List.mem_toFinset] at hv
      rcases hv with hv | hv
      · obtain ⟨u, hu1, hu2, hu3, hu4⟩ := inv.par_step v hv hvs
        refine ⟨u, ?_, ?_, hu3, ?_⟩
        · rw [h6 v (hnewnotin v hv)]
          exact hu1
        · rw [h1]
          exact Finset.mem_union_left _ hu2
        · show (if v ∈ vis then D v else _) = (if u ∈ vis then D u else _) + 1
          rw [if_pos hv, if_pos hu2]
          exact hu4
      · refine ⟨cur, h7 v hv, ?_, hnewnb v hv, ?_⟩
        · rw [h1]
          exact Finset.mem_union_left _ hcurvis
        · show (if v ∈ vis then D v else _) = (if cur ∈ vis then D cur else _) + 1
          rw [if_neg (hnewvis v hv), if_pos hcurvis]
    · rw [h2]
      refine List.Nodup.append hrestnodup h3 ?_
      intro x hx hx'
      exact hnewvis x hx' (hrestvis x hx)
    · rw [h2, h1]
      intro x hx
      rcases List.mem_append.1 hx with hx | hx
      · exact Finset.mem_union_left _ (hrestvis x hx)
      · exact Finset.mem_union_right _ (List.mem_toFinset.2 hx)
    · rw [h2, List.pairwise_append]
      refine ⟨?_, ?_, ?_⟩
      · refine hsorted.2.imp_of_mem ?_
        intro a b ha hb hab
        rw [hDrest a ha, hDrest b hb]
        exact hab
      · refine h3.imp_of_mem ?_
        intro a b ha hb _
        rw [hDnew a ha, hDnew b hb]
      · intro x hx y hy
        rw [hDrest x hx, hDnew y hy]
        exact htwo cur (List.mem_cons_self _ _) x (List.mem_cons_of_mem _ hx)
    · rw [h2]
      intro a ha b hb
      rcases List.mem_append.1 ha with ha | ha <;>
        rcases List.mem_append.1 hb with hb | hb
      · rw [hDrest a ha, hDrest b hb]
        exact htwo a (List.mem_cons_of_mem _ ha) b (List.mem_cons_of_mem _ hb)
      · rw [hDrest a ha, hDnew b hb]
        have := hrest_le a ha
        omega
      · rw [hDnew a ha, hDrest b hb]
        have := htwo cur (List.mem_cons_self _ _) b (List.mem_cons_of_mem _ hb)
        omega
      · rw [hDnew a ha, hDnew b hb]
        omega
    · rw [h2, h1]
      intro u hu huq v hadj
      rw [Finset.mem_union, List.mem_toFinset] at hu
      have hunew : u ∉ new := fun hc => huq (List.mem_append_right _ hc)
      have hurest : u ∉ rest := fun hc => huq (List.mem_append_left _ hc)
      rcases hu with hu | hu
      · by_cases hucur : u = cur
        · have hv : v ∈ g.neighbors cur ao ac := by
            rw [← hucur]
            exact hadj
          have hvfold := h5 v hv
          rw [h1] at hvfold
          refine ⟨hvfold, ?_⟩
          rw [Finset.mem_union, List.mem_toFinset] at hvfold
          show (if v ∈ vis then D v else _) ≤ (if u ∈ vis then D u else _) + 1
          rw [if_pos hu, hucur]
          rcases hvfold with hv' | hv'
          · rw [if_pos hv']
            by_cases hvq : v ∈ cur :: rest
            · exact htwo cur (List.mem_cons_self _ _) v hvq
            · have := hdeq v hv' hvq cur (List.mem_cons_self _ _)
              omega
          · rw [if_neg (hnewvis v hv')]
        · have huq' : u ∉ cur :: rest := by
            intro hc
            rcases List.mem_cons.1 hc with hc | hc
            · exact hucur hc
            · exact hurest hc
          obtain ⟨hv1, hv2⟩ := inv.closed_expanded u hu huq' v hadj
          refine ⟨Finset.mem_union_left _ hv1, ?_⟩
          show (if v ∈ vis then D v else _) ≤ (if u ∈ vis then D u else _) + 1
          rw [if_pos hv1, if_pos hu]
          exact hv2
      · exact absurd hu hunew
    · rw [h2, h1]
      intro u hu huq x hx
      rw [Finset.mem_union, List.mem_toFinset] at hu
      have hunew : u ∉ new := fun hc => huq (List.mem_append_right _ hc)
      have hurest : u ∉ rest := fun hc => huq (List.mem_append_left _ hc)
      rcases hu with hu | hu
      swap
      · exact absurd hu hunew
      rcases List.mem_append.1 hx with hx | hx
      · rw [hDrest x hx]
        show (if u ∈ vis then D u else _) ≤ D x
        rw [if_pos hu]
        by_cases hucur : u = cur
        · rw [hucur]
          exact hrest_le x hx
        · refine hdeq u hu ?_ x (List.mem_cons_of_mem _ hx)
          intro hc
          rcases List.mem_cons.1 hc with hc | hc
          · exact hucur hc
          · exact hurest hc
      · rw [hDnew x hx]
        show (if u ∈ vis then D u else _) ≤ D cur + 1
        rw [if_pos hu]
        by_cases hucur : u = cur
        · rw [hucur]
          omega
        · have := hdeq u hu (by
            intro hc
            rcases List.mem_cons.1 hc with hc | hc
            · exact hucur hc
            · exact hurest hc) cur (List.mem_cons_self _ _)
          omega
    · rw [h1]
      intro x hx
      rw [Finset.mem_union, List.mem_toFinset] at hx
      rcases hx with hx | hx
      · exact inv.vis_touched hx
      · exact neighbors_subset_touched (hnewnb x hx)
    · rw [h1]
      intro v hv
      rw [Finset.mem_union, List.mem_toFinset] at hv
      rcases hv with hv | hv
      · rcases inv.vo_prov v hv with h' | ⟨u, hu, ha⟩
        · exact Or.inl h'
        · exact Or.inr ⟨u, List.mem_append_left _ hu, ha⟩
      · exact Or.inr ⟨cur, List.mem_append_right _ (List.mem_singleton_self _),
          hnewnb v hv⟩
    · rw [h1]
      intro v hv
      rcases List.mem_append.1 hv with hv | hv
      · exact Finset.mem_union_left _ (inv.vo_vis v hv)
      · rw [List.mem_singleton] at hv
        subst hv
        exact Finset.mem_union_left _ hcurvis
  · rw [h1, h2]
    have hsub : new.toFinset ⊆ touched g s \ vis := by
      intro x hx
      rw [List.mem_toFinset] at hx
      exact Finset.mem_sdiff.2
        ⟨neighbors_subset_touched (hnewnb x hx), hnewvis x hx⟩
    have hdiff : touched g s \ (vis ∪ new.toFinset) =
        (touched g s \ vis) \ new.toFinset := by
      ext x
      simp only [Finset.mem_sdiff, Finset.mem_union]
      tauto
    have hcard : (touched g s \ (vis ∪ new.toFinset)).card =
        (touched g s \ vis).card - new.toFinset.card := by
      rw [hdiff, Finset.card_sdiff hsub]
    have hle : new.toFinset.card ≤ (touched g s \ vis).card :=
      Finset.card_le_card hsub
    have hnc : new.toFinset.card = new.length := List.toFinset_card_of_nodup h3
    rw [hcard, hnc, List.length_append, List.length_cons]
    omega

/-- Master theorem of the BFS loop: from an invariant state with enough
fuel, the loop completes; the visited order is sound, and a returned path
is a valid filtered path from `s` to `goal` of minimal length. -/
theorem bfsAux_correct {g : Graph} {goal : Name} {ao ac : Bool} {s : Name} :
    ∀ (fuel : Nat) (vis : Finset Name) (q : List Name)
      (par : List (Name × Option Name)) (vo : List Name) (D : Name → Nat),
      BfsInv g ao ac s vis q par vo D →
      2 * (touched g s \ vis).card + q.length < fuel →
      ∃ r, bfsAux g goal ao ac fuel vis q par vo = some r ∧
        VoSound g ao ac s r.2 ∧
        (∀ p, r.1 = some p → ValidPath g ao ac s goal p ∧
          ∀ p', ValidPath g ao ac s goal p' → p.length ≤ p'.length) := by
  intro fuel
  induction fuel with
  | zero => intro vis q par vo D _ hm; exact absurd hm (Nat.not_lt_zero _)
  | succ fuel ih =>
    intro vis q par vo D inv hm
    cases q with
    | nil =>
      refine ⟨(none, vo), by rw [bfsAux], ?_, ?_⟩
      · intro v hv
        rcases inv.vo_prov v (inv.vo_vis v hv) with h | ⟨u, hu, ha⟩
        · exact Or.inl h
        · exact Or.inr ⟨u, hu, ha⟩
      · intro p hp
        cases hp
    | cons cur rest =>
      by_cases hg : cur = goal
      · have hcv : cur ∈ vis := inv.q_vis cur (List.mem_cons_self _ _)
        have hDlt : D cur < vis.card + 1 :=
          Nat.lt_succ_of_lt (D_lt_card inv cur hcv)
        obtain ⟨p, hbp, hlen, hhd, hlast, hch, -, -, -⟩ :=
          buildPath_of_inv inv (vis.card + 1) cur hcv hDlt
        refine ⟨(some p, vo ++ [cur]), ?_, ?_, ?_⟩
        · rw [bfsAux, if_pos hg, hbp]
        · intro v hv
          rcases List.mem_append.1 hv with hv | hv
          · rcases inv.vo_prov v (inv.vo_vis v hv) with h | ⟨u, hu, ha⟩
            · exact Or.inl h
            · exact Or.inr ⟨u, List.mem_append_left _ hu, ha⟩
          · rw [List.mem_singleton] at hv
            rcases inv.vo_prov cur hcv with h | ⟨u, hu, ha⟩
            · refine Or.inl ?_
              rw [hv]
              exact h
            · refine Or.inr ⟨u, List.mem_append_left _ hu, ?_⟩
              rw [hv]
              exact ha
        · intro p' hp'
          rw [Option.some_inj] at hp'
          subst hp'
          refine ⟨⟨hhd, by rw [hlast, hg], hch⟩, ?_⟩
          intro p'' hp''
          obtain ⟨hh'', hl'', hc''⟩ := hp''
          rcases bfs_min_walk inv p'' hc'' hh'' goal hl'' with hleft | ⟨-, -, hnq⟩
          · rw [hlen]
            exact hleft
          · exfalso
            apply hnq
            rw [← hg]
            exact List.mem_cons_self _ _
      · obtain ⟨D', inv', hmeas⟩ := bfsInv_expand inv
        simp only [List.length_cons] at hm hmeas
        obtain ⟨r, hr, hpost⟩ := ih _ _ _ _ D' inv' (by omega)
        refine ⟨r, ?_, hpost⟩
        rw [bfsAux, if_neg hg]
        exact hr

/-- The `bfs` wrapper runs to completion from its initial state, and its
result satisfies the master postconditions. -/
theorem bfs_result (g : Graph) (s goal : Name) (ao ac : Bool) :
    VoSound g ao ac s (bfs g s goal ao ac).2 ∧
      (∀ p, (bfs g s goal ao ac).1 = some p → ValidPath g ao ac s goal p ∧
        ∀ p', ValidPath g ao ac s goal p' → p.length ≤ p'.length) := by
  have hstart := start_mem_touched g s
  have inv0 : BfsInv g ao ac s {s} [s] [(s, none)] [] (fun _ => 0) := by
    refine ⟨Finset.mem_singleton_self s, lookupPar_cons_self s none [], rfl,
      ?_, List.nodup_singleton s, ?_, List.pairwise_singleton _ s, ?_, ?_, ?_,
      ?_, ?_, ?_⟩
    · intro v hv hvs
      rw [Finset.mem_singleton] at hv
      exact absurd hv hvs
    · intro x hx
      rw [List.mem_singleton] at hx
      rw [hx]
      exact Finset.mem_singleton_self s
    · intro a _ b _
      omega
    · intro u hu huq
      rw [Finset.mem_singleton] at hu
      refine absurd ?_ huq
      rw [hu]
      exact List.mem_singleton_self s
    · intro u hu huq
      rw [Finset.mem_singleton] at hu
      refine absurd ?_ huq
      rw [hu]
      exact List.mem_singleton_self s
    · intro x hx
      rw [Finset.mem_singleton] at hx
      rw [hx]
      exact hstart
    · intro v hv
      rw [Finset.mem_singleton] at hv
      exact Or.inl hv
    · intro v hv
      cases hv
  have hmeas : 2 * (touched g s \ {s}).card + [s].length < bfsFuel g s := by
    have hsub : ({s} : Finset Name) ⊆ touched g s := by
      intro x hx
      rw [Finset.mem_singleton] at hx
      rw [hx]
      exact hstart
    have h1 : (touched g s \ {s}).card = (touched g s).card - 1 := by
      rw [Finset.card_sdiff hsub, Finset.card_singleton]
    have h2 : 1 ≤ (touched g s).card := Finset.card_pos.2 ⟨s, hstart⟩
    rw [h1, List.length_singleton]
    unfold bfsFuel
    omega
  obtain ⟨r, hr, hvo, hmin⟩ :=
    @bfsAux_correct g goal ao ac s (bfsFuel g s) {s} [s] [(s, none)] []
      (fun _ => 0) inv0 hmeas
  have hbfs : bfs g s goal ao ac = r := by
    unfold bfs
    rw [hr]
    rfl
  rw [hbfs]
  exact ⟨hvo, hmin⟩

/-! ### Claims C1 and C6 -/
/-- With `allowClosed = false`, a filtered hop is exactly a hop over a
non-closed edge that also passes the accessibility filter. -/
theorem adj_allowClosed_false_iff {g : Graph} {ao : Bool} {u v : Name} :
    Adj g ao false u v ↔
      ∃ p ∈ g.edges, u ∈ p.1 ∧ p.2.closed = false ∧
        (ao && !p.2.accessible) = false ∧ p.2.other u = v := by
  rw [Adj, mem_neighbors]
  constructor
  · rintro ⟨p, hp, h1, h2, h3, h4⟩
    refine ⟨p, hp, h1, ?_, h3, h4⟩
    simpa using h2
  · rintro ⟨p, hp, h1, h2, h3, h4⟩
    refine ⟨p, hp, h1, ?_, h3, h4⟩
    simpa using h2

/-- C1: whenever both searches return a path, the BFS path's hop count is
at most the DFS path's hop count; indeed the BFS path is a valid filtered
path of minimum hop count among all filtered paths from start to goal. -/
theorem claim_C1_bfs_optimal (g : Graph) (s t : Name) (ao ac : Bool) :
    (∀ pB voB, bfs g s t ao ac = (some pB, voB) →
      ValidPath g ao ac s t pB ∧
        ∀ p, ValidPath g ao ac s t p →
          pB.length ≤ p.length ∧ pB.length - 1 ≤ p.length - 1) ∧
    (∀ pB voB pD voD, bfs g s t ao ac = (some pB, voB) →
      dfs g s t ao ac = (some pD, voD) → pB.length - 1 ≤ pD.length - 1) := by
  have hb := bfs_result g s t ao ac
  have hd := dfs_result g s t ao ac
  constructor
  · intro pB voB hB
    have h1 : (bfs g s t ao ac).1 = some pB := by rw [hB]
    obtain ⟨hvalid, hmin⟩ := hb.2 pB h1
    refine ⟨hvalid, fun p hp => ?_⟩
    have := hmin p hp
    exact ⟨this, Nat.sub_le_sub_right this 1⟩
  · intro pB voB pD voD hB hD
    have h1 : (bfs g s t ao ac).1 = some pB := by rw [hB]
    have h2 : (dfs g s t ao ac).1 = some pD := by rw [hD]
    obtain ⟨-, hmin⟩ := hb.2 pB h1
    exact Nat.sub_le_sub_right (hmin pD (hd.2 pD h2)) 1

/-- Witness for C1, on Scenario A: both searches return the two-hop path
X–Y–Z, and the hop-count comparison holds. -/
theorem claim_C1_bfs_optimal_witness :
    bfs scenarioA "X" "Z" false false = (some ["X", "Y", "Z"], ["X", "Y", "Z"]) ∧
    dfs scenarioA "X" "Z" false false = (some ["X", "Y", "Z"], ["X", "Y", "Z"]) ∧
    (["X", "Y", "Z"] : List Name).length - 1 ≤
      (["X", "Y", "Z"] : List Name).length - 1 :=
  ⟨by rfl, by rfl,
    (claim_C1_bfs_optimal scenarioA "X" "Z" false false).2
      ["X", "Y", "Z"] ["X", "Y", "Z"] ["X", "Y", "Z"] ["X", "Y", "Z"]
      (by rfl) (by rfl)⟩

/-- C6: with `allowClosed = false`, neither traversal ever expands through
a closed edge — every node of the visited order other than the start is
reached from another visited node through a non-closed (and
accessibility-passing) edge, and every consecutive pair of a returned path
is joined by such an edge. -/
theorem claim_C6_no_closed_edge (g : Graph) (s t : Name) (ao : Bool) :
    ((∀ v ∈ (bfs g s t ao false).2, v = s ∨ ∃ u ∈ (bfs g s t ao false).2,
        ∃ p ∈ g.edges, u ∈ p.1 ∧ p.2.closed = false ∧
          (ao && !p.2.accessible) = false ∧ p.2.other u = v) ∧
      (∀ pa, (bfs g s t ao false).1 = some pa → List.Chain' (fun u v =>
        ∃ p ∈ g.edges, u ∈ p.1 ∧ p.2.closed = false ∧
          (ao && !p.2.accessible) = false ∧ p.2.other u = v) pa)) ∧
    ((∀ v ∈ (dfs g s t ao false).2, v = s ∨ ∃ u ∈ (dfs g s t ao false).2,
        ∃ p ∈ g.edges, u ∈ p.1 ∧ p.2.closed = false ∧
          (ao && !p.2.accessible) = false ∧ p.2.other u = v) ∧
      (∀ pa, (dfs g s t ao false).1 = some pa → List.Chain' (fun u v =>
        ∃ p ∈ g.edges, u ∈ p.1 ∧ p.2.closed = false ∧
          (ao && !p.2.accessible) = false ∧ p.2.other u = v) pa)) := by
  obtain ⟨hbvo, hbpath⟩ := bfs_result g s t ao false
  obtain ⟨hdvo, hdpath⟩ := dfs_result g s t ao false
  refine ⟨⟨?_, ?_⟩, ?_, ?_⟩
  · intro v hv
    rcases hbvo v hv with h | ⟨u, hu, ha⟩
    · exact Or.inl h
    · exact Or.inr ⟨u, hu, adj_allowClosed_false_iff.1 ha⟩
  · intro pa hpa
    obtain ⟨⟨-, -, hch⟩, -⟩ := hbpath pa hpa
    exact hch.imp (fun a b hab => adj_allowClosed_false_iff.1 hab)
  · intro v hv
    rcases hdvo v hv with h | ⟨u, hu, ha⟩
    · exact Or.inl h
    · exact Or.inr ⟨u, hu, adj_allowClosed_false_iff.1 ha⟩
  · intro pa hpa
    obtain ⟨-, -, hch⟩ := hdpath pa hpa
    exact hch.imp (fun a b hab => adj_allowClosed_false_iff.1 hab)

/-- Witness for C6, on Scenario A with `accessibleOnly = false`: the visited
node Y is expanded from a visited node through a non-closed edge, and the
returned BFS path chains through non-closed edges. -/
theorem claim_C6_no_closed_edge_witness :
    "Y" ∈ (bfs scenarioA "X" "Z" false false).2 ∧
    (bfs scenarioA "X" "Z" false false).1 = some ["X", "Y", "Z"] ∧
    ("Y" = "X" ∨ ∃ u ∈ (bfs scenarioA "X" "Z" false false).2,
      ∃ p ∈ scenarioA.edges, u ∈ p.1 ∧ p.2.closed = false ∧
        (false && !p.2.accessible) = false ∧ p.2.other u = "Y") ∧
    List.Chain' (fun u v => ∃ p ∈ scenarioA.edges, u ∈ p.1 ∧
      p.2.closed = false ∧ (false && !p.2.accessible) = false ∧
      p.2.other u = v) ["X", "Y", "Z"] :=
  ⟨by decide, by rfl,
    (claim_C6_no_closed_edge scenarioA "X" "Z" false).1.1 "Y" (by decide),
    (claim_C6_no_closed_edge scenarioA "X" "Z" false).1.2 ["X", "Y", "Z"]
      (by rfl)⟩

end CampusNav
